import Mathlib

/-!
# LanguorDB: version and compaction core

A shallow embedding of `version.go` and `compaction.go` (package `languorDB`).

Conventions of the embedding.

* A Go `[]byte` is a `List Nat` (one entry per byte); a `uint64` is a `Nat`,
  reduced `% 2^64` where the source's arithmetic can wrap.
* `*internalkey.InternalKey` stored in a `FileMetaData` is never nil once the
  metadata is installed in a `Version` (`DecodeFrom` allocates both keys,
  the flush and compaction paths dereference them before `addFile`), so the
  record holds the keys themselves; the nil-able `compactPointer` entries are
  `Option`s.
* The fixed array `[config.NumLevels][]*FileMetaData` is a function from the
  level index to the slice of that level; only indexes below `NumLevels` are
  meaningful.
* A Go run-time panic (index out of range, negative `make` length) is the
  outer `none` of an `Option`.
-/

namespace LanguorDB

/-! ## Configuration constants and key comparators (package `config`, `internalkey`) -/

/-- Modelled from the spec: `config.NumLevels`, whose declaration is not part of the
sources at hand; the configuration table gives the build-time value 7. -/
def NumLevels : Nat := 7

/-- Modelled from the spec: `config.L0_CompactionTrigger` (value 4 in the configuration table). -/
def L0_CompactionTrigger : Nat := 4

/-- Modelled from the spec: `config.MaxMemCompactLevel` (value 2 in the configuration table). -/
def MaxMemCompactLevel : Nat := 2

/-- Modelled from the spec: `config.MaxFileSize` (2 MiB in the configuration table). -/
def MaxFileSize : Nat := 2 * 1048576

/-- The record `internalkey.InternalKey`: user key, sequence number, kind
(the Go field is called `Type`) and user value. -/
structure InternalKey where
  UserKey : List Nat
  Seq : Nat
  Kind : Nat
  UserValue : List Nat
deriving DecidableEq, Repr, Inhabited

/-- Modelled from the spec: `internalkey.UserKeyComparator`, whose body is not part of
the sources at hand; the spec defines it as the lexicographic comparison of the
bytes, returned as -1, 0 or 1. -/
def UserKeyComparator (a b : List Nat) : Int :=
  if a < b then -1 else if a = b then 0 else 1

/-- Modelled from the spec: `internalkey.InternalKeyComparator`, whose body is not part
of the sources at hand; the spec orders by ascending user key and breaks ties by
descending sequence number. -/
def InternalKeyComparator (a b : InternalKey) : Int :=
  let r := UserKeyComparator a.UserKey b.UserKey
  if r ≠ 0 then r
  else if b.Seq < a.Seq then -1
  else if a.Seq < b.Seq then 1
  else 0

/-! ## Data model (`version.go`) -/

/-- The record `FileMetaData` of `version.go`. -/
structure FileMetaData where
  allowSeeks : Nat
  number : Nat
  fileSize : Nat
  smallest : InternalKey
  largest : InternalKey
deriving DecidableEq, Repr, Inhabited

/-- The record `Version` of `version.go` without the table cache handle and the
coarse index, which none of the modelled functions reads. -/
structure Version where
  nextFileNumber : Nat
  seq : Nat
  files : Nat → List FileMetaData
  compactPointer : Nat → Option InternalKey

/-- The function `New`: file number 1, no files, no compaction pointers. -/
def New : Version :=
  { nextFileNumber := 1, seq := 0, files := fun _ => [], compactPointer := fun _ => none }

/-! ## `Version.findFile` -/

/-- The loop of `Version.findFile`: one iteration per unit of fuel, on the
window `[left, right)`. The index `mid` is always inside the slice (the loop
keeps `right ≤ len(files)`), so the `none` branch of the lookup is never taken. -/
def findFileLoop (files : List FileMetaData) (key : List Nat) : Nat → Nat → Nat → Nat
  | 0, _, right => right
  | fuel + 1, left, right =>
    if left < right then
      let mid := (left + right) / 2
      match files[mid]? with
      | none => right
      | some f =>
        if UserKeyComparator f.largest.UserKey key < 0 then
          findFileLoop files key fuel (mid + 1) right
        else
          findFileLoop files key fuel left mid
    else right

/-- The method `Version.findFile` (it does not read its receiver): binary search
from `left = 0`, `right = len(files)`. The window shrinks at every iteration, so
`len(files)` units of fuel let the loop run to its exit. -/
def findFile (files : List FileMetaData) (key : List Nat) : Nat :=
  findFileLoop files key files.length 0 files.length

/-- The slice is ordered by ascending `largest.UserKey`. -/
def SortedByLargest (files : List FileMetaData) : Prop :=
  files.Pairwise (fun f g => f.largest.UserKey ≤ g.largest.UserKey)

/-! ## `Version.Get` -/

/-- The error values a lookup can carry: `errors.ErrNotFound`, or any other
error, told apart by a code. -/
inductive DBError where
  | ErrNotFound
  | ErrOther (code : Nat)
deriving DecidableEq, Repr

/-- The pair `([]byte, error)` a lookup returns; a nil slice is the empty list,
a nil error is `none`. -/
abbrev GetResult := List Nat × Option DBError

/-- The inner loop of `Version.Get` over the candidates of one level: probe
`tableCache.Get(f.number, key)` in order and return at the first result whose
error is not `ErrNotFound`; `none` when the loop runs to its end. -/
def probeFiles (probe : Nat → List Nat → GetResult) (key : List Nat) :
    List FileMetaData → Option GetResult
  | [] => none
  | f :: rest =>
    if (probe f.number key).2 ≠ some DBError.ErrNotFound then some (probe f.number key)
    else probeFiles probe key rest

/-- The level-0 scan of `Version.Get`: the files whose
`[smallest.UserKey, largest.UserKey]` contains the key, in stored order. -/
def level0Overlapping (files : List FileMetaData) (key : List Nat) : List FileMetaData :=
  files.filter (fun f =>
    decide (0 ≤ UserKeyComparator key f.smallest.UserKey) &&
    decide (UserKeyComparator key f.largest.UserKey ≤ 0))

/-- The call `sort.Slice(tmp, number descending)`. Go leaves the relative order of
files with equal numbers unspecified; the model fixes one such order (insertion
sort), and the statements about `Get` hold for every descending arrangement. -/
def sortByNumberDesc (tmp : List FileMetaData) : List FileMetaData :=
  tmp.insertionSort (fun a b => b.number ≤ a.number)

/-- The candidate slice `files` that one iteration of the level loop of
`Version.Get` builds before probing. -/
def getLevelFiles (v : Version) (level : Nat) (key : List Nat) : List FileMetaData :=
  let numFiles := (v.files level).length
  if numFiles = 0 then []
  else if level = 0 then
    sortByNumberDesc (level0Overlapping (v.files level) key)
  else
    let index := findFile (v.files level) key
    if numFiles ≤ index then []
    else
      match (v.files level)[index]? with
      | none => []
      | some f =>
        if UserKeyComparator key f.smallest.UserKey < 0 then [] else [f]

/-- The level loop of `Version.Get` over the remaining levels. -/
def getLevels (probe : Nat → List Nat → GetResult) (v : Version) (key : List Nat) :
    List Nat → GetResult
  | [] => ([], some DBError.ErrNotFound)
  | level :: rest =>
    match probeFiles probe key (getLevelFiles v level key) with
    | some r => r
    | none => getLevels probe v key rest

/-- The method `Version.Get`, with the table probe `tableCache.Get` as a parameter. -/
def Get (probe : Nat → List Nat → GetResult) (v : Version) (key : List Nat) : GetResult :=
  getLevels probe v key (List.range NumLevels)

/-- The candidate of a level `≥ 1` in the words of the spec: the single file at
index `findFile(files[L], key)` when that index is in range and the key is not
below the file's smallest user key. -/
def levelCandidate (v : Version) (key : List Nat) (level : Nat) : List FileMetaData :=
  match (v.files level)[findFile (v.files level) key]? with
  | none => []
  | some f => if f.smallest.UserKey ≤ key then [f] else []

/-- The candidates of levels `1 .. NumLevels-1` in ascending level order. -/
def deeperCandidates (v : Version) (key : List Nat) : List FileMetaData :=
  (List.range' 1 (NumLevels - 1)).flatMap (levelCandidate v key)

/-- The result of the first probe, in candidate order, that is not `ErrNotFound`;
`(nil, ErrNotFound)` when there is none. -/
def firstProbe (probe : Nat → List Nat → GetResult) (key : List Nat)
    (cands : List FileMetaData) : GetResult :=
  match cands.find? (fun f => decide ((probe f.number key).2 ≠ some DBError.ErrNotFound)) with
  | some f => probe f.number key
  | none => ([], some DBError.ErrNotFound)

/-! ## `Version.overlapInLevel`, `Version.deleteFile`, `Version.addFile` (`compaction.go`) -/

/-- The method `Version.overlapInLevel`. -/
def overlapInLevel (v : Version) (level : Nat) (smallestKey largestKey : List Nat) : Bool :=
  let numFiles := (v.files level).length
  if numFiles = 0 then false
  else if level = 0 then
    (v.files level).any (fun f =>
      !(decide (0 < UserKeyComparator smallestKey f.largest.UserKey) ||
        decide (0 < UserKeyComparator f.smallest.UserKey largestKey)))
  else
    let index := findFile (v.files level) smallestKey
    if numFiles ≤ index then false
    else
      match (v.files level)[index]? with
      | none => false
      | some f => decide (0 < UserKeyComparator largestKey f.smallest.UserKey)

/-- The loop of `Version.deleteFile` on one level: drop the first file whose
number equals the given one, keep everything else in order. -/
def deleteFromLevel (number : Nat) : List FileMetaData → List FileMetaData
  | [] => []
  | f :: rest => if f.number = number then rest else f :: deleteFromLevel number rest

/-- The method `Version.deleteFile`. -/
def deleteFile (v : Version) (level : Nat) (meta : FileMetaData) : Version :=
  { v with files := Function.update v.files level (deleteFromLevel meta.number (v.files level)) }

/-- The slice `Version.addFile` stores for a level `≥ 1`: the new file goes in at
index `findFile(files, meta.smallest.UserKey)`. -/
def insertIntoLevel (meta : FileMetaData) (files : List FileMetaData) : List FileMetaData :=
  let index := findFile files meta.smallest.UserKey
  if files.length ≤ index then files ++ [meta]
  else files.take index ++ [meta] ++ files.drop index

/-- The method `Version.addFile`. -/
def addFile (v : Version) (level : Nat) (meta : FileMetaData) : Version :=
  if level = 0 then
    { v with files := Function.update v.files level (v.files level ++ [meta]) }
  else
    { v with files := Function.update v.files level (insertIntoLevel meta (v.files level)) }

/-- One call on a fixed level: `addFile(level, meta)` or `deleteFile(level, meta)`. -/
inductive FileOp where
  | add (meta : FileMetaData)
  | delete (meta : FileMetaData)
deriving DecidableEq, Repr

/-- Run one call. -/
def applyOp (level : Nat) (v : Version) : FileOp → Version
  | FileOp.add meta => addFile v level meta
  | FileOp.delete meta => deleteFile v level meta

/-- Run a finite sequence of calls, first to last. -/
def applyOps (level : Nat) (v : Version) (ops : List FileOp) : Version :=
  ops.foldl (applyOp level) v

/-- The user-key range of the file is not empty: `smallest.UserKey ≤ largest.UserKey`. -/
def WellFormedRange (f : FileMetaData) : Prop :=
  f.smallest.UserKey ≤ f.largest.UserKey

/-- Two files share a user key in their closed ranges. -/
def RangesOverlap (f g : FileMetaData) : Prop :=
  f.smallest.UserKey ≤ g.largest.UserKey ∧ g.smallest.UserKey ≤ f.largest.UserKey

/-- The invariant of a level `≥ 1`: every range is well formed, the slice is
ordered by `smallest.UserKey`, and no two files have overlapping ranges. -/
def LevelSorted (files : List FileMetaData) : Prop :=
  (∀ f ∈ files, WellFormedRange f) ∧
  files.Pairwise (fun f g => f.smallest.UserKey ≤ g.smallest.UserKey) ∧
  files.Pairwise (fun f g => ¬ RangesOverlap f g)

/-- Every file handed to `addFile` in the sequence has a well-formed range. -/
def OpsWellFormed (ops : List FileOp) : Prop :=
  ∀ meta, FileOp.add meta ∈ ops → WellFormedRange meta

/-- Every file handed to `addFile` has a well-formed range and, at the moment
of its call, overlaps no file of the level. -/
def OpsDisjoint (level : Nat) : Version → List FileOp → Prop
  | _, [] => True
  | v, FileOp.add meta :: rest =>
    WellFormedRange meta ∧ (∀ f ∈ v.files level, ¬ RangesOverlap meta f) ∧
      OpsDisjoint level (addFile v level meta) rest
  | v, FileOp.delete meta :: rest => OpsDisjoint level (deleteFile v level meta) rest

/-- The level-0 candidates in the words of the spec: the files whose closed
user-key range contains the key, in stored order. -/
def level0Containing (files : List FileMetaData) (key : List Nat) : List FileMetaData :=
  files.filter (fun f => decide (f.smallest.UserKey ≤ key ∧ key ≤ f.largest.UserKey))

/-- The first probe result that is not `ErrNotFound` along a list of file numbers. -/
def firstProbeNum (probe : Nat → List Nat → GetResult) (key : List Nat) :
    List Nat → GetResult
  | [] => ([], some DBError.ErrNotFound)
  | n :: rest =>
    if (probe n key).2 ≠ some DBError.ErrNotFound then probe n key
    else firstProbeNum probe key rest

/-- The invariant of a level `≥ 1` in the form of data-model invariant 1: every
range is well formed and each file ends strictly before every later file starts. -/
def DisjointAscending (files : List FileMetaData) : Prop :=
  (∀ f ∈ files, WellFormedRange f) ∧
  files.Pairwise (fun f g => f.largest.UserKey < g.smallest.UserKey)

/-! ## Descriptor codec (`compaction.go`) -/

/-- The `n` low-order bytes of `x`, least significant first: what
`binary.Write(w, binary.LittleEndian, x)` appends for an `n`-byte integer
(the conversion to the fixed width drops the higher bytes). -/
def putUintLE : Nat → Nat → List Nat
  | 0, _ => []
  | n + 1, x => (x % 256) :: putUintLE n (x / 256)

/-- The unsigned integer that a run of little-endian bytes spells. -/
def getUintLE : List Nat → Nat
  | [] => 0
  | b :: rest => b + 256 * getUintLE rest

/-- The call `binary.Read(r, binary.LittleEndian, &x)` for an `n`-byte unsigned `x`
with the returned error dropped, as every call site in `compaction.go` does:
with `n` bytes left the value is read; on a short read `x` keeps its old value
and the reader is drained. -/
def binaryRead (n : Nat) (r : List Nat) (old : Nat) : Nat × List Nat :=
  if n ≤ r.length then (getUintLE (r.take n), r.drop n) else (old, [])

/-- The 32-bit two's complement reading of an unsigned 4-byte value. -/
def toInt32 (u : Nat) : Int :=
  if u < 2 ^ 31 then (u : Int) else (u : Int) - 2 ^ 32

/-- The call `binary.Read(r, binary.LittleEndian, &numFiles)` for the `int32`
file count, error dropped. -/
def binaryReadInt32 (r : List Nat) (old : Int) : Int × List Nat :=
  if 4 ≤ r.length then (toInt32 (getUintLE (r.take 4)), r.drop 4) else (old, [])

/-- Modelled from the spec: `InternalKey.EncodeTo` of package `internalkey`, whose body
is not part of the sources at hand. The spec gives the layout: `u32` user-key
length, the user-key bytes, `u64` sequence, `u8` kind, `u32` user-value length,
the user-value bytes, all little-endian. -/
def InternalKey.EncodeTo (k : InternalKey) : List Nat :=
  putUintLE 4 k.UserKey.length ++ k.UserKey ++ putUintLE 8 k.Seq ++ putUintLE 1 k.Kind ++
    putUintLE 4 k.UserValue.length ++ k.UserValue

/-- Take `n` bytes from the reader, or fail on a short read. -/
def readBytes (n : Nat) (r : List Nat) : Option (List Nat × List Nat) :=
  if n ≤ r.length then some (r.take n, r.drop n) else none

/-- The zero value of `InternalKey`, as `new(internalkey.InternalKey)` allocates it. -/
def InternalKey.zero : InternalKey :=
  { UserKey := [], Seq := 0, Kind := 0, UserValue := [] }

/-- Modelled from the spec: `InternalKey.DecodeFrom` of package `internalkey`, whose body
is not part of the sources at hand: the inverse of the layout of `EncodeTo`,
failing on a short read. The result is the key as far as it was filled, the
rest of the reader (drained on failure) and whether the decode succeeded. -/
def InternalKey.DecodeFrom (r : List Nat) : InternalKey × List Nat × Bool :=
  match readBytes 4 r with
  | none => (InternalKey.zero, [], false)
  | some (klen, r1) =>
    match readBytes (getUintLE klen) r1 with
    | none => (InternalKey.zero, [], false)
    | some (ukey, r2) =>
      match readBytes 8 r2 with
      | none => ({ InternalKey.zero with UserKey := ukey }, [], false)
      | some (sq, r3) =>
        match readBytes 1 r3 with
        | none => ({ InternalKey.zero with UserKey := ukey, Seq := getUintLE sq }, [], false)
        | some (kd, r4) =>
          match readBytes 4 r4 with
          | none =>
            ({ UserKey := ukey, Seq := getUintLE sq, Kind := getUintLE kd, UserValue := [] },
              [], false)
          | some (vlen, r5) =>
            match readBytes (getUintLE vlen) r5 with
            | none =>
              ({ UserKey := ukey, Seq := getUintLE sq, Kind := getUintLE kd, UserValue := [] },
                [], false)
            | some (uval, r6) =>
              ({ UserKey := ukey, Seq := getUintLE sq, Kind := getUintLE kd, UserValue := uval },
                r6, true)

/-- The method `FileMetaData.EncodeTo`: the bytes it writes. -/
def FileMetaData.EncodeTo (meta : FileMetaData) : List Nat :=
  putUintLE 8 meta.allowSeeks ++ putUintLE 8 meta.fileSize ++ putUintLE 8 meta.number ++
    meta.smallest.EncodeTo ++ meta.largest.EncodeTo

/-- The method `FileMetaData.DecodeFrom` on a zero-valued receiver (`var meta
FileMetaData`): the filled record and the rest of the reader. The errors of
the five reads are dropped and the method returns nil whatever happened. -/
def FileMetaData.DecodeFrom (r : List Nat) : FileMetaData × List Nat :=
  let a := binaryRead 8 r 0
  let s := binaryRead 8 a.2 0
  let n := binaryRead 8 s.2 0
  let lo := InternalKey.DecodeFrom n.2
  let hi := InternalKey.DecodeFrom lo.2.1
  ({ allowSeeks := a.1, fileSize := s.1, number := n.1, smallest := lo.1, largest := hi.1 },
    hi.2.1)

/-- The bytes `Version.EncodeTo` writes for one level: the `int32` file count,
then every file of the level in order. -/
def encodeLevel (files : List FileMetaData) : List Nat :=
  putUintLE 4 files.length ++ files.flatMap FileMetaData.EncodeTo

/-- The method `Version.EncodeTo`: the bytes it writes. -/
def Version.EncodeTo (v : Version) : List Nat :=
  putUintLE 8 v.nextFileNumber ++ putUintLE 8 v.seq ++
    (List.range NumLevels).flatMap (fun level => encodeLevel (v.files level))

/-- The inner loop of `Version.DecodeFrom`: decode `numFiles` records in a row. -/
def decodeFiles : Nat → List Nat → List FileMetaData × List Nat
  | 0, r => ([], r)
  | n + 1, r =>
    let m := FileMetaData.DecodeFrom r
    let rest := decodeFiles n m.2
    (m.1 :: rest.1, rest.2)

/-- The level loop of `Version.DecodeFrom`. The variable `numFiles` is declared
outside the loop, so a failed read leaves the count of the level before. A
negative count makes `make([]*FileMetaData, numFiles)` panic: `none`. -/
def decodeLevels : List Nat → Version → List Nat → Int → Option (Version × List Nat)
  | [], v, r, _ => some (v, r)
  | level :: rest, v, r, numFiles =>
    let c := binaryReadInt32 r numFiles
    if c.1 < 0 then none
    else
      let fs := decodeFiles c.1.toNat c.2
      decodeLevels rest { v with files := Function.update v.files level fs.1 } fs.2 c.1

/-- The method `Version.DecodeFrom`: the version after decoding and the rest of
the reader, or `none` when the method panics. It returns nil otherwise. -/
def Version.DecodeFrom (v : Version) (r : List Nat) : Option (Version × List Nat) :=
  let n := binaryRead 8 r v.nextFileNumber
  let s := binaryRead 8 n.2 v.seq
  decodeLevels (List.range NumLevels) { v with nextFileNumber := n.1, seq := s.1 } s.2 0

/-- The key fits the descriptor layout: user-key length in `u32`, sequence in
`u64`, kind in `u8`, and the user value is empty (as stored in file metadata). -/
abbrev KeyEncodable (k : InternalKey) : Prop :=
  k.UserKey.length < 2 ^ 32 ∧ k.Seq < 2 ^ 64 ∧ k.Kind < 2 ^ 8 ∧ k.UserValue = []

/-- The record's integers are `uint64` values and both keys fit the layout. -/
abbrev MetaEncodable (f : FileMetaData) : Prop :=
  f.allowSeeks < 2 ^ 64 ∧ f.fileSize < 2 ^ 64 ∧ f.number < 2 ^ 64 ∧
    KeyEncodable f.smallest ∧ KeyEncodable f.largest

/-! ## Compaction selection (`compaction.go`) -/

/-- The function `totalFileSize`: the `uint64` sum of the file sizes, wrapping. -/
def totalFileSize (files : List FileMetaData) : Nat :=
  files.foldl (fun sum f => (sum + f.fileSize) % 2 ^ 64) 0

/-- Rounding of a rational to the nearest integer, a tie going to the even one. -/
def roundHalfEven (x : ℚ) : ℤ :=
  if Int.fract x < 1 / 2 then ⌊x⌋
  else if 1 / 2 < Int.fract x then ⌊x⌋ + 1
  else if ⌊x⌋ % 2 = 0 then ⌊x⌋ else ⌊x⌋ + 1

/-- The `float64` value of a rational: round to nearest, ties to even, on a
significand of 53 bits. This is the rounding of Go's conversion `float64(x)`
and of each `float64` operation on the exact result. Overflow and subnormal
numbers are left out: the scores of `pickCompactionLevel` are quotients of a
`uint64` by a constant between `10 * 2^20` and `10^5 * 2^20`, far from both. -/
def roundF64 (q : ℚ) : ℚ :=
  if q = 0 then 0
  else (roundHalfEven (q / (2 : ℚ) ^ (Int.log 2 |q| - 52)) : ℚ) * (2 : ℚ) ^ (Int.log 2 |q| - 52)

/-- The function `maxBytesForLevel`. A `float64` is modelled by the rational it
denotes and the rounding of every conversion and operation by the parameter
`fl`; the program is the instance `fl = roundF64`, and `fl = id` is exact
arithmetic. The constant `10. * 1048576.0` is exact. The loop multiplies by ten
once per level above 1. -/
def maxBytesForLevel (fl : ℚ → ℚ) : Nat → ℚ
  | 0 => 10485760
  | level + 1 => if level = 0 then 10485760 else fl (maxBytesForLevel fl level * 10)

/-- The `score` that one iteration of the loop of `pickCompactionLevel` computes. -/
def levelScore (fl : ℚ → ℚ) (v : Version) (level : Nat) : ℚ :=
  if level = 0 then
    fl (fl ((v.files 0).length : ℚ) / (L0_CompactionTrigger : ℚ))
  else
    fl (fl (totalFileSize (v.files level) : ℚ) / maxBytesForLevel fl level)

/-- One iteration of the loop of `pickCompactionLevel` on the state
`(compactionLevel, bestScore)`. -/
def pickLevelStep (fl : ℚ → ℚ) (v : Version) (st : Int × ℚ) (level : Nat) : Int × ℚ :=
  if st.2 < levelScore fl v level then ((level : Int), levelScore fl v level) else st

/-- The method `Version.pickCompactionLevel`: scan the levels `0 .. NumLevels-2`
from `compactionLevel = -1`, `bestScore = 1.0`. -/
def pickCompactionLevel (fl : ℚ → ℚ) (v : Version) : Int :=
  ((List.range (NumLevels - 1)).foldl (pickLevelStep fl v) (-1, 1)).1

/-- The record `Compaction`; `inputs0` and `inputs1` are `inputs[0]` and `inputs[1]`. -/
structure Compaction where
  level : Nat
  inputs0 : List FileMetaData
  inputs1 : List FileMetaData
deriving DecidableEq, Repr

/-- The method `Compaction.isTrivialMove`. -/
def Compaction.isTrivialMove (c : Compaction) : Bool :=
  c.inputs0.length == 1 && c.inputs1.length == 0

/-- One iteration of the level-0 loop of `pickCompaction` on the state
`(smallest, largest)`. -/
def expandRange (st : InternalKey × InternalKey) (f : FileMetaData) :
    InternalKey × InternalKey :=
  let largest := if 0 < InternalKeyComparator f.largest st.2 then f.largest else st.2
  let smallest := if InternalKeyComparator f.smallest st.1 < 0 then f.smallest else st.1
  (smallest, largest)

/-- The loop of `pickCompaction` on a level `≥ 1`: the first file that comes after
the compaction pointer, every file qualifying when the pointer is nil. -/
def firstAfterPointer (pointer : Option InternalKey) :
    List FileMetaData → Option FileMetaData
  | [] => none
  | f :: rest =>
    match pointer with
    | none => some f
    | some p =>
      if 0 < InternalKeyComparator f.largest p then some f else firstAfterPointer pointer rest

/-- The part of `pickCompaction` that selects `inputs[0]` and the key range
`(smallest, largest)` for the level; `none` is an index panic on an empty slice. -/
def pickInputs0 (v : Version) (level : Nat) :
    Option (List FileMetaData × InternalKey × InternalKey) :=
  if level = 0 then
    match v.files level with
    | [] => none
    | f :: rest => some (f :: rest, rest.foldl expandRange (f.smallest, f.largest))
  else
    match firstAfterPointer (v.compactPointer level) (v.files level) with
    | some f => some ([f], f.smallest, f.largest)
    | none =>
      match v.files level with
      | [] => none
      | f :: _ => some ([f], f.smallest, f.largest)

/-- The last loop of `pickCompaction`: the files of the next level that are
neither completely before nor completely after `[smallest, largest]`. -/
def pickInputs1 (files : List FileMetaData) (smallest largest : InternalKey) :
    List FileMetaData :=
  files.filter (fun f =>
    !(decide (InternalKeyComparator f.largest smallest < 0) ||
      decide (0 < InternalKeyComparator f.smallest largest)))

/-- The body of `pickCompaction` once the level is known to be `≥ 0`. -/
def pickCompactionAt (v : Version) (level : Nat) : Option Compaction :=
  match pickInputs0 v level with
  | none => none
  | some (inputs0, smallest, largest) =>
    some { level := level, inputs0 := inputs0,
           inputs1 := pickInputs1 (v.files (level + 1)) smallest largest }

/-- The method `Version.pickCompaction`: `some none` is the nil result, the outer
`none` a panic. -/
def pickCompaction (fl : ℚ → ℚ) (v : Version) : Option (Option Compaction) :=
  if pickCompactionLevel fl v < 0 then some none
  else (pickCompactionAt v (pickCompactionLevel fl v).toNat).map some

/-- The input file `pickCompaction` takes on a level `≥ 1`, in the words of the
spec: the first file whose largest key is strictly greater than the compaction
pointer, or the first file of the level when the pointer is empty or no file
qualifies. -/
def specInput (v : Version) (level : Nat) : Option FileMetaData :=
  match v.compactPointer level with
  | none => (v.files level)[0]?
  | some p =>
    match (v.files level).find? (fun f => decide (0 < InternalKeyComparator f.largest p)) with
    | some f => some f
    | none => (v.files level)[0]?

/-- The state of the scan after the first `n` levels: either nothing scored above
1 and the state is the initial one, or the state names the first level of
maximal score among them. -/
def ScanState (fl : ℚ → ℚ) (v : Version) (n : Nat) (st : Int × ℚ) : Prop :=
  (st.1 = -1 ∧ st.2 = 1 ∧ ∀ L, L < n → levelScore fl v L ≤ 1) ∨
  (∃ L, L < n ∧ st.1 = (L : Int) ∧ st.2 = levelScore fl v L ∧ 1 < levelScore fl v L ∧
    (∀ K, K < n → levelScore fl v K ≤ levelScore fl v L) ∧
    (∀ K, K < L → levelScore fl v K < levelScore fl v L))

/-- The strict order of `InternalKeyComparator` in the words of the spec: the
user key is smaller, or the user keys are equal and the sequence is larger. -/
def KeyBefore (a b : InternalKey) : Prop :=
  a.UserKey < b.UserKey ∨ (a.UserKey = b.UserKey ∧ b.Seq < a.Seq)

/-- The sort key of `InternalKeyComparator`: user key, then sequence reversed. -/
def sortKey (a : InternalKey) : Lex (List Nat × ℕᵒᵈ) :=
  toLex (a.UserKey, OrderDual.toDual a.Seq)

/-- The key `s` is a minimum of the `smallest` keys of the files under
`InternalKeyComparator`. -/
def IsLeastSmallest (inputs : List FileMetaData) (s : InternalKey) : Prop :=
  (∃ f ∈ inputs, f.smallest = s) ∧ ∀ f ∈ inputs, InternalKeyComparator s f.smallest ≤ 0

/-- The key `l` is a maximum of the `largest` keys of the files under
`InternalKeyComparator`. -/
def IsGreatestLargest (inputs : List FileMetaData) (l : InternalKey) : Prop :=
  (∃ f ∈ inputs, f.largest = l) ∧ ∀ f ∈ inputs, 0 ≤ InternalKeyComparator l f.largest

/-! ## Compaction execution (`compaction.go`) -/

/-- The inner loop of the merging rewrite in `DoCompactionWork`, for one output
file. State: `currentKey`, the records added to the builder, `meta.largest`;
`fileSize` is what `builder.FileSize()` answers after the given records. The
result holds the final state and the stream left after the outer loop's
`iter.Next()`; `none` is `log.Fatalf`. The assignment to `currentKey` is inside
the branch `currentKey != nil`, as in the source. -/
def mergeInner (fileSize : List InternalKey → Nat) :
    Option InternalKey → List InternalKey → Option InternalKey → List InternalKey →
    Option (Option InternalKey × List InternalKey × Option InternalKey × List InternalKey)
  | currentKey, records, largest, [] => some (currentKey, records, largest, [])
  | currentKey, records, largest, k :: rest =>
    match currentKey with
    | some ck =>
      if UserKeyComparator k.UserKey ck.UserKey = 0 then
        mergeInner fileSize currentKey records largest rest
      else if UserKeyComparator k.UserKey ck.UserKey < 0 then none
      else if MaxFileSize < fileSize (records ++ [k]) then
        some (some k, records ++ [k], some k, rest)
      else mergeInner fileSize (some k) (records ++ [k]) (some k) rest
    | none =>
      if MaxFileSize < fileSize (records ++ [k]) then
        some (none, records ++ [k], some k, rest)
      else mergeInner fileSize none (records ++ [k]) (some k) rest

/-- The outer loop of the merging rewrite: one output file per iteration, with
its metadata and the records written to it. State: `nextFileNumber` and
`currentKey`. Every iteration consumes a record, so `len(stream)` units of fuel
run the loop to its end. `none` is `log.Fatalf` or a nil dereference. -/
def mergeOuter (fileSize : List InternalKey → Nat) :
    Nat → Nat → Option InternalKey → List InternalKey →
    Option (Nat × List (FileMetaData × List InternalKey))
  | _, nextFileNumber, _, [] => some (nextFileNumber, [])
  | 0, nextFileNumber, _, _ :: _ => some (nextFileNumber, [])
  | fuel + 1, nextFileNumber, currentKey, k :: rest =>
    match mergeInner fileSize currentKey [] none (k :: rest) with
    | none => none
    | some (currentKey1, records, largest, remaining) =>
      match largest with
      | none => none
      | some lg =>
        match mergeOuter fileSize fuel ((nextFileNumber + 1) % 2 ^ 64) currentKey1 remaining with
        | none => none
        | some (n, outputs) =>
          some (n, ({ allowSeeks := 2 ^ 30, number := nextFileNumber,
                      fileSize := fileSize records % 2 ^ 64,
                      smallest := { k with UserValue := [] },
                      largest := { lg with UserValue := [] } }, records) :: outputs)

/-- The output files of the merging rewrite over a stream, from
`currentKey = nil`. -/
def mergeRewrite (fileSize : List InternalKey → Nat) (nextFileNumber : Nat)
    (stream : List InternalKey) : Option (Nat × List (FileMetaData × List InternalKey)) :=
  mergeOuter fileSize stream.length nextFileNumber none stream

/-- The part of `DoCompactionWork` after `pickCompaction` returned `c`: a trivial
move, or the merging rewrite followed by the three install loops. `iter c` is
the sequence the merging iterator of `makeInputsIterator(c)` yields. -/
def compactionWork (iter : Compaction → List InternalKey)
    (fileSize : List InternalKey → Nat) (v : Version) (c : Compaction) : Option Version :=
  if c.isTrivialMove then
    match c.inputs0 with
    | [] => none
    | f :: _ => some (addFile (deleteFile v c.level f) (c.level + 1) f)
  else
    match mergeRewrite fileSize v.nextFileNumber (iter c) with
    | none => none
    | some (n, outputs) =>
      let v1 := { v with nextFileNumber := n }
      let v2 := c.inputs0.foldl (fun w f => deleteFile w c.level f) v1
      let v3 := c.inputs1.foldl (fun w f => deleteFile w (c.level + 1) f) v2
      some ((outputs.map (fun o => o.1)).foldl (fun w f => addFile w (c.level + 1) f) v3)

/-- The method `Version.DoCompactionWork`: the returned flag and the version
afterwards; `none` when the process stops (panic or `log.Fatalf`). -/
def DoCompactionWork (fl : ℚ → ℚ) (iter : Compaction → List InternalKey)
    (fileSize : List InternalKey → Nat) (v : Version) : Option (Bool × Version) :=
  match pickCompaction fl v with
  | none => none
  | some none => some (false, v)
  | some (some c) => (compactionWork iter fileSize v c).map (fun w => (true, w))

/-! ## Persistence and flush (`version.go`, `compaction.go`) -/

/-- The method `Version.Save` on the version itself: the number it returns and
the version afterwards. The counter is advanced before the descriptor file is
created, whatever `os.Create` and `EncodeTo` answer. -/
def Save (v : Version) : Nat × Version :=
  (v.nextFileNumber, { v with nextFileNumber := (v.nextFileNumber + 1) % 2 ^ 64 })

/-- The function `Load` once the descriptor is read: `file` is the content of the
descriptor, `none` when `os.Open` fails with the given error. The error it
returns after a successful open is the one `Version.DecodeFrom` returns, which
is the constant nil (`return nil` is the method's only return). The outer
`none` is a panic inside `DecodeFrom`. -/
def Load (file : Except DBError (List Nat)) : Option (Option Version × Option DBError) :=
  match file with
  | Except.error e => some (none, some e)
  | Except.ok bytes =>
    match Version.DecodeFrom New bytes with
    | none => none
    | some r => some (some r.1, none)

/-- The first part of `Version.WriteLevel0Table`, up to the end of the block
`if iter.Valid()`: the version with the file number allocated, the number, and
the keys `meta.smallest` / `meta.largest` with the file size, which stay nil
and zero when the memtable iterator has no item. `imm` is the sequence the
memtable iterator yields, `fileSize` what `builder.FileSize()` answers after
the given records. -/
def flushPrepare (fileSize : List InternalKey → Nat) (v : Version) (imm : List InternalKey) :
    Version × Nat × Option (InternalKey × InternalKey × Nat) :=
  ({ v with nextFileNumber := (v.nextFileNumber + 1) % 2 ^ 64 }, v.nextFileNumber,
    match imm.head?, imm.getLast? with
    | some first, some last =>
      some ({ first with UserValue := [] }, { last with UserValue := [] }, fileSize imm % 2 ^ 64)
    | _, _ => none)

/-- The loop `for ; level < config.MaxMemCompactLevel; level++` of
`WriteLevel0Table`, one iteration per unit of fuel. -/
def flushLevelLoop (v : Version) (lo hi : List Nat) : Nat → Nat → Nat
  | 0, level => level
  | fuel + 1, level =>
    if level < MaxMemCompactLevel then
      if overlapInLevel v (level + 1) lo hi then level
      else flushLevelLoop v lo hi fuel (level + 1)
    else level

/-- The level `WriteLevel0Table` selects for a file with user keys `[lo, hi]`.
The loop counts `level` up from 0, so `MaxMemCompactLevel` units of fuel run it
to its exit. -/
def flushLevel (v : Version) (lo hi : List Nat) : Nat :=
  if overlapInLevel v 0 lo hi then 0
  else flushLevelLoop v lo hi MaxMemCompactLevel 0

/-- The metadata `WriteLevel0Table` builds for a non-empty memtable. -/
def flushMeta (number : Nat) (keys : InternalKey × InternalKey × Nat) : FileMetaData :=
  { allowSeeks := 2 ^ 30, number := number, fileSize := keys.2.2,
    smallest := keys.1, largest := keys.2.1 }

/-- The method `Version.WriteLevel0Table`. With an empty memtable
`meta.smallest` is nil when `meta.smallest.UserKey` is evaluated for the
overlap test: a nil dereference, `none`. -/
def WriteLevel0Table (fileSize : List InternalKey → Nat) (v : Version)
    (imm : List InternalKey) : Option Version :=
  match (flushPrepare fileSize v imm).2.2 with
  | none => none
  | some keys =>
    let v1 := (flushPrepare fileSize v imm).1
    let meta := flushMeta (flushPrepare fileSize v imm).2.1 keys
    some (addFile v1 (flushLevel v1 meta.smallest.UserKey meta.largest.UserKey) meta)

/-- Some file of the slice shares a user key with the closed range `[lo, hi]`. -/
def overlapsSomeFile (files : List FileMetaData) (lo hi : List Nat) : Bool :=
  files.any (fun f => decide (lo ≤ f.largest.UserKey ∧ f.smallest.UserKey ≤ hi))

/-- The walk of the flush in the words of the spec: go up from `level` while it
is below `MaxMemCompactLevel` and the new file overlaps no file of the next
level. -/
def walkLevelLoop (v : Version) (lo hi : List Nat) : Nat → Nat → Nat
  | 0, level => level
  | fuel + 1, level =>
    if level < MaxMemCompactLevel then
      if overlapsSomeFile (v.files (level + 1)) lo hi then level
      else walkLevelLoop v lo hi fuel (level + 1)
    else level

/-- The destination level in the words of the spec: 0 when
`overlapInLevel(0, lo, hi)`, else the level at which the walk stops. -/
def walkLevel (v : Version) (lo hi : List Nat) : Nat :=
  if overlapInLevel v 0 lo hi then 0
  else walkLevelLoop v lo hi MaxMemCompactLevel 0

/-! ## Table cache (`version/table_cache.go`) -/

/-- An open table: the `*sstable.SSTable` the oracle hands out, `none` for a nil
pointer. -/
abbrev TableHandle := Option Nat

/-- The LRU cache as a finite map from file number to the stored handle; `none`
is an absent key. Eviction by capacity is left out. -/
abbrev CacheMap := Nat → Option TableHandle

/-- The method `TableCache.findTable` under its mutex, with `sstable.Open` on the
conventional path of the file number as the oracle `openTable`: the returned
pair and the cache afterwards. -/
def findTable (openTable : Nat → TableHandle × Option DBError) (cache : CacheMap)
    (fileNum : Nat) : (TableHandle × Option DBError) × CacheMap :=
  match cache fileNum with
  | some table => ((table, none), cache)
  | none =>
    (((openTable fileNum).1, (openTable fileNum).2),
      Function.update cache fileNum (some (openTable fileNum).1))

/-! ## Reachable versions -/

/-- Every file number stored on any level is below `bound`, and no two stored
files share a number: not within a level, not across levels. -/
def FilesFresh (files : Nat → List FileMetaData) (bound : Nat) : Prop :=
  (∀ l, ∀ f ∈ files l, f.number < bound) ∧
  (∀ l, ((files l).map (fun f => f.number)).Nodup) ∧
  (∀ l1 l2, l1 ≠ l2 → ∀ f ∈ files l1, ∀ g ∈ files l2, f.number ≠ g.number)

/-- One step of the version's history in which `nextFileNumber` does not wrap
around `2^64`: a `Save`, a `WriteLevel0Table` of a non-empty memtable, or a
`DoCompactionWork`, each one returning. -/
inductive Step : Version → Version → Prop where
  | save (v : Version) (hw : v.nextFileNumber + 1 < 2 ^ 64) : Step v (Save v).2
  | flush (fileSize : List InternalKey → Nat) (imm : List InternalKey) (v w : Version)
      (hne : imm ≠ []) (hw : v.nextFileNumber + 1 < 2 ^ 64)
      (h : WriteLevel0Table fileSize v imm = some w) : Step v w
  | compact (fl : ℚ → ℚ) (iter : Compaction → List InternalKey)
      (fileSize : List InternalKey → Nat) (v w : Version) (b : Bool)
      (hw : ∀ c n outputs, pickCompaction fl v = some (some c) → c.isTrivialMove = false →
        mergeRewrite fileSize v.nextFileNumber (iter c) = some (n, outputs) →
        v.nextFileNumber + outputs.length < 2 ^ 64)
      (h : DoCompactionWork fl iter fileSize v = some (b, w)) : Step v w

/-- The versions reached from `New` by finitely many steps. -/
inductive Reachable : Version → Prop where
  | init : Reachable New
  | step (v w : Version) (hv : Reachable v) (hs : Step v w) : Reachable w

/-! ## Concrete inputs -/

/-- An internal key with the given user key and sequence number, kind PUT, no value. -/
def mkKey (userKey : List Nat) (seq : Nat) : InternalKey :=
  { UserKey := userKey, Seq := seq, Kind := 1, UserValue := [] }

/-- A file with the given number and size whose keys span `[lo, hi]`. -/
def mkFile (number fileSize : Nat) (lo hi : List Nat) : FileMetaData :=
  { allowSeeks := 2 ^ 30, number := number, fileSize := fileSize,
    smallest := mkKey lo 2, largest := mkKey hi 1 }

/-- Three disjoint files `[1..3]`, `[5..7]`, `[9..11]` (single-byte keys). -/
def threeFiles : List FileMetaData :=
  [mkFile 1 100 [1] [3], mkFile 2 100 [5] [7], mkFile 3 100 [9] [11]]

/-- A version whose level 1 holds the single file `[2..4]`. -/
def boundaryVersion : Version :=
  { New with nextFileNumber := 2, files := fun l => if l = 1 then [mkFile 1 100 [2] [4]] else [] }

/-- A version with two overlapping level-0 files (numbers 3 and 7) and one
level-1 file (number 4). -/
def lookupVersion : Version :=
  { New with
    nextFileNumber := 8,
    files := fun l =>
      if l = 0 then [mkFile 3 100 [1] [5], mkFile 7 100 [2] [9]]
      else if l = 1 then [mkFile 4 100 [1] [3]]
      else [] }

/-- A table probe under which only files 3 and 4 hold the key. -/
def lookupProbe (number : Nat) (_key : List Nat) : GetResult :=
  if number = 3 then ([30], none)
  else if number = 4 then ([40], none)
  else ([], some DBError.ErrNotFound)

/-- A sequence of calls on level 1 of `boundaryVersion`, each new file disjoint
from the files present at its call. -/
def disjointOps : List FileOp :=
  [FileOp.add (mkFile 2 100 [6] [8]), FileOp.delete (mkFile 1 100 [2] [4]),
   FileOp.add (mkFile 3 100 [1] [5])]

/-- A version with files on levels 0 and 1 and a compaction pointer on level 1. -/
def descriptorVersion : Version :=
  { nextFileNumber := 8, seq := 41,
    files := fun l =>
      if l = 0 then [mkFile 3 100 [1] [5], mkFile 7 100 [2] [9]]
      else if l = 1 then [mkFile 4 100 [1, 2] [3]]
      else [],
    compactPointer := fun l => if l = 1 then some (mkKey [3] 1) else none }

/-- The stream of the dedup scenario: the user key `k` (byte 107) with sequence
20 and value `v2`, then with sequence 10 and value `v1`. -/
def dedupStream : List InternalKey :=
  [{ UserKey := [107], Seq := 20, Kind := 1, UserValue := [118, 50] },
   { UserKey := [107], Seq := 10, Kind := 1, UserValue := [118, 49] }]

/-- A table builder whose file size is the number of records added. -/
def countingSize (records : List InternalKey) : Nat := records.length

/-- A version whose level 1 holds one file of 20 MiB with keys `[100..200]`;
level 2 holds a file `[30..40]` that does not meet it. -/
def trivialMoveVersion : Version :=
  { New with
    nextFileNumber := 9,
    files := fun l =>
      if l = 1 then [mkFile 4 20971520 [100] [200]]
      else if l = 2 then [mkFile 2 100 [30] [40]]
      else [] }

/-- A version with five level-0 files and two level-1 files, the second of
which is clear of the level-0 key range. -/
def level0Version : Version :=
  { New with
    nextFileNumber := 9,
    files := fun l =>
      if l = 0 then
        [mkFile 3 10 [5] [9], mkFile 4 10 [2] [6], mkFile 5 10 [7] [12], mkFile 6 10 [3] [4],
         mkFile 7 10 [8] [8]]
      else if l = 1 then [mkFile 1 10 [1] [3], mkFile 2 10 [20] [30]]
      else [] }

/-- The memtable of the push-down scenario: `a → 1` and `z → 2`. -/
def pushDownMemtable : List InternalKey :=
  [{ UserKey := [97], Seq := 1, Kind := 1, UserValue := [49] },
   { UserKey := [122], Seq := 2, Kind := 1, UserValue := [50] }]

/-- An oracle for `sstable.Open` that fails on every file. -/
def failingOpen (_fileNum : Nat) : TableHandle × Option DBError :=
  (none, some (DBError.ErrOther 2))

/-- An oracle for `sstable.Open` that opens every file. -/
def workingOpen (fileNum : Nat) : TableHandle × Option DBError :=
  (some fileNum, none)

/-- The cache without entries. -/
def emptyCache : CacheMap := fun _ => none

/-- A merged stream of two records with the user keys `[5]` and `[9]`. -/
def twoKeyStream : List InternalKey :=
  [{ UserKey := [5], Seq := 3, Kind := 1, UserValue := [1] },
   { UserKey := [9], Seq := 4, Kind := 1, UserValue := [2] }]

/-- A version whose level 2 holds the single file `[2..4]`. -/
def boundaryLevel2Version : Version :=
  { New with nextFileNumber := 2, files := fun l => if l = 2 then [mkFile 1 100 [2] [4]] else [] }

/-- A memtable with the user keys `[1]` and `[2]`. -/
def boundaryMemtable : List InternalKey :=
  [{ UserKey := [1], Seq := 5, Kind := 1, UserValue := [7] },
   { UserKey := [2], Seq := 6, Kind := 1, UserValue := [8] }]

/-- The first 20 bytes of the descriptor of `descriptorVersion`: the two counters
and the file count of level 0. -/
def truncatedDescriptor : List Nat :=
  [8, 0, 0, 0, 0, 0, 0, 0, 41, 0, 0, 0, 0, 0, 0, 0, 2, 0, 0, 0]

/-- The version after flushing `pushDownMemtable` into `New`: file 1 on level 2. -/
def flushedVersion : Version :=
  addFile { New with nextFileNumber := 2 } 2
    (flushMeta 1
      ({ UserKey := [97], Seq := 1, Kind := 1, UserValue := [] },
       { UserKey := [122], Seq := 2, Kind := 1, UserValue := [] }, 2))

/-- A version whose level 1 holds `2^50` bytes and whose level 2 holds
`10 * 2^50 + 1` bytes. -/
def roundingVersion : Version :=
  { New with
    nextFileNumber := 3,
    files := fun l =>
      if l = 1 then [mkFile 1 (2 ^ 50) [1] [2]]
      else if l = 2 then [mkFile 2 (10 * 2 ^ 50 + 1) [1] [2]]
      else [] }

/-- A table builder that reports 200 MiB whatever it holds. -/
def bigTableSize (_records : List InternalKey) : Nat := 209715200

/-- The version after flushing `pushDownMemtable` into `New` with a builder that
reports 200 MiB: file 1 on level 2. -/
def bigFlushedVersion : Version :=
  addFile { New with nextFileNumber := 2 } 2
    (flushMeta 1
      ({ UserKey := [97], Seq := 1, Kind := 1, UserValue := [] },
       { UserKey := [122], Seq := 2, Kind := 1, UserValue := [] }, 209715200))

/-! # Theorems -/

/-! ## Comparator facts -/

theorem ukc_neg_iff (a b : List Nat) : UserKeyComparator a b < 0 ↔ a < b := by
  unfold UserKeyComparator
  split_ifs with h1 h2 <;> simp [h1]

theorem ukc_pos_iff (a b : List Nat) : 0 < UserKeyComparator a b ↔ b < a := by
  unfold UserKeyComparator
  split_ifs with h1 h2
  · simp [not_lt_of_lt h1]
  · simp [h2]
  · simp
    exact lt_of_le_of_ne (not_lt.mp h1) (fun h => h2 h.symm)

theorem ukc_zero_iff (a b : List Nat) : UserKeyComparator a b = 0 ↔ a = b := by
  unfold UserKeyComparator
  split_ifs with h1 h2
  · simp [ne_of_lt h1]
  · simp [h2]
  · simp [h2]

theorem ukc_nonneg_iff (a b : List Nat) : 0 ≤ UserKeyComparator a b ↔ b ≤ a := by
  rw [← not_lt, ← not_lt, ukc_neg_iff]

theorem ukc_nonpos_iff (a b : List Nat) : UserKeyComparator a b ≤ 0 ↔ a ≤ b := by
  rw [← not_lt, ← not_lt, ukc_pos_iff]

/-! ## `findFile`: the binary search contract -/

theorem sortedByLargest_get (files : List FileMetaData) (hs : SortedByLargest files)
    (i j : Nat) (f g : FileMetaData) (hij : i ≤ j) (hf : files[i]? = some f)
    (hg : files[j]? = some g) : f.largest.UserKey ≤ g.largest.UserKey := by
  rcases Nat.lt_or_eq_of_le hij with h | h
  · obtain ⟨hi, rfl⟩ := List.getElem?_eq_some.mp hf
    obtain ⟨hj, rfl⟩ := List.getElem?_eq_some.mp hg
    exact List.pairwise_iff_getElem.mp hs i j hi hj h
  · subst h
    rw [hf] at hg
    cases hg
    exact le_refl _

/-- Invariant of the binary search: everything left of the window is below the
key, everything at or right of the window's end is at or above it. -/
theorem findFileLoop_spec (files : List FileMetaData) (key : List Nat)
    (hs : SortedByLargest files) :
    ∀ (fuel left right : Nat), right - left ≤ fuel → left ≤ right → right ≤ files.length →
      (∀ j f, j < left → files[j]? = some f → f.largest.UserKey < key) →
      (∀ j f, right ≤ j → files[j]? = some f → key ≤ f.largest.UserKey) →
      let i := findFileLoop files key fuel left right
      i ≤ files.length ∧
      (∀ j f, j < i → files[j]? = some f → f.largest.UserKey < key) ∧
      (∀ j f, i ≤ j → files[j]? = some f → key ≤ f.largest.UserKey) := by
  intro fuel
  induction fuel with
  | zero =>
    intro left right hfuel hlr hlen hlo hhi
    have : left = right := by omega
    subst this
    simp only [findFileLoop]
    exact ⟨hlen, hlo, hhi⟩
  | succ fuel ih =>
    intro left right hfuel hlr hlen hlo hhi
    simp only [findFileLoop]
    split_ifs with hlt
    · have hmid : (left + right) / 2 < files.length := by omega
      rw [List.getElem?_eq_getElem hmid]
      simp only
      split_ifs with hc
      · rw [ukc_neg_iff] at hc
        apply ih (((left + right) / 2) + 1) right (by omega) (by omega) hlen _ hhi
        intro j f hj hf
        have hle := sortedByLargest_get files hs j ((left + right) / 2) f _ (by omega) hf
          (List.getElem?_eq_getElem hmid)
        exact lt_of_le_of_lt hle hc
      · rw [ukc_neg_iff, not_lt] at hc
        apply ih left ((left + right) / 2) (by omega) (by omega) (by omega) hlo
        intro j f hj hf
        have hle := sortedByLargest_get files hs ((left + right) / 2) j _ f hj
          (List.getElem?_eq_getElem hmid) hf
        exact le_trans hc hle
    · have : left = right := by omega
      subst this
      exact ⟨hlen, hlo, hhi⟩

/-- Claim C1. For a slice ordered by ascending `largest.UserKey` and any user key,
`findFile` returns an index `i` with `i ≤ len(files)` such that the file at `i`
(when `i` is in range) has `largest.UserKey ≥ key` and every file at an index
below `i` has `largest.UserKey < key`: the least index whose largest user key
reaches the key, or `len(files)` when there is none. -/
theorem findFile_contract (files : List FileMetaData) (key : List Nat)
    (hs : SortedByLargest files) :
    findFile files key ≤ files.length ∧
    (findFile files key = files.length ∨
      ∃ f, files[findFile files key]? = some f ∧
        0 ≤ UserKeyComparator f.largest.UserKey key) ∧
    (∀ j f, j < findFile files key → files[j]? = some f →
        UserKeyComparator f.largest.UserKey key < 0) := by
  have h := findFileLoop_spec files key hs files.length 0 files.length (by omega) (by omega)
    (le_refl _) (by intro j f hj; omega)
    (by
      intro j f hj hf
      have := (List.getElem?_eq_some.mp hf).1
      omega)
  obtain ⟨h1, h2, h3⟩ := h
  refine ⟨h1, ?_, ?_⟩
  · rcases Nat.lt_or_eq_of_le h1 with hlt | heq
    · right
      refine ⟨files[findFile files key], List.getElem?_eq_getElem hlt, ?_⟩
      rw [ukc_nonneg_iff]
      exact h3 _ _ (le_refl _) (List.getElem?_eq_getElem hlt)
    · left
      exact heq
  · intro j f hj hf
    rw [ukc_neg_iff]
    exact h2 j f hj hf

/-- Witness of claim C1 on three files and the key `[4]`, which falls in the gap
before the second file. -/
theorem findFile_contract_witness :
    SortedByLargest threeFiles ∧ findFile threeFiles [4] = 1 ∧
    (findFile threeFiles [4] ≤ threeFiles.length ∧
    (findFile threeFiles [4] = threeFiles.length ∨
      ∃ f, threeFiles[findFile threeFiles [4]]? = some f ∧
        0 ≤ UserKeyComparator f.largest.UserKey [4]) ∧
    (∀ j f, j < findFile threeFiles [4] → threeFiles[j]? = some f →
        UserKeyComparator f.largest.UserKey [4] < 0)) :=
  ⟨by unfold SortedByLargest; decide, by decide,
    findFile_contract threeFiles [4] (by unfold SortedByLargest; decide)⟩

/-! ## `overlapInLevel` -/

/-- What `overlapInLevel` computes on a level `≥ 1`: the file at index
`findFile(files, lo)` exists and its smallest user key is strictly below `hi`. -/
theorem overlapInLevel_deep_iff (v : Version) (level : Nat) (lo hi : List Nat)
    (hl : 1 ≤ level) :
    overlapInLevel v level lo hi = true ↔
      ∃ f, (v.files level)[findFile (v.files level) lo]? = some f ∧ f.smallest.UserKey < hi := by
  unfold overlapInLevel
  have h0 : level ≠ 0 := by omega
  simp only [h0, if_false]
  split_ifs with hn hi2
  · have : v.files level = [] := List.length_eq_zero.mp hn
    simp [this]
  · have : (v.files level)[findFile (v.files level) lo]? = none :=
      List.getElem?_eq_none hi2
    simp [this]
  · cases hget : (v.files level)[findFile (v.files level) lo]? with
    | none => simp
    | some f => simp [ukc_pos_iff]

/-- Claim C3, evaluated at the boundary: level 1 holds one file with user keys
`[2..4]` and the query range is `[1..2]`. The index `findFile(files, lo)` is 0,
in range, and `hi` equals that file's smallest user key, yet `overlapInLevel`
answers false: the level-`≥ 1` branch compares with `> 0`, where the level-0
branch of the same function counts the shared boundary key as an overlap. -/
theorem overlapInLevel_boundary_missed :
    findFile (boundaryVersion.files 1) [1] = 0 ∧
    (boundaryVersion.files 1)[0]? = some (mkFile 1 100 [2] [4]) ∧
    0 ≤ UserKeyComparator [2] (mkFile 1 100 [2] [4]).smallest.UserKey ∧
    overlapInLevel boundaryVersion 1 [1] [2] = false ∧
    overlapInLevel { boundaryVersion with files := fun l =>
      if l = 0 then [mkFile 1 100 [2] [4]] else [] } 0 [1] [2] = true := by
  decide

/-! ## `Version.Get` -/

theorem firstProbe_eq_num (probe : Nat → List Nat → GetResult) (key : List Nat)
    (cands : List FileMetaData) :
    firstProbe probe key cands = firstProbeNum probe key (cands.map (fun f => f.number)) := by
  induction cands with
  | nil => rfl
  | cons f rest ih =>
    unfold firstProbe at ih ⊢
    simp only [List.find?_cons, List.map_cons, firstProbeNum]
    by_cases h : (probe f.number key).2 = some DBError.ErrNotFound
    · simp only [h, ne_eq, not_true_eq_false, decide_False, if_false]
      exact ih
    · simp [h]

theorem firstProbeNum_append (probe : Nat → List Nat → GetResult) (key : List Nat)
    (xs ys : List Nat) :
    firstProbeNum probe key (xs ++ ys) =
      if ∀ n ∈ xs, (probe n key).2 = some DBError.ErrNotFound then firstProbeNum probe key ys
      else firstProbeNum probe key xs := by
  induction xs with
  | nil => simp
  | cons n rest ih =>
    simp only [List.cons_append, firstProbeNum, List.mem_cons, forall_eq_or_imp]
    by_cases h : (probe n key).2 = some DBError.ErrNotFound
    · simp only [h, ne_eq, not_true_eq_false, if_false, true_and]
      exact ih
    · simp [h]

theorem firstProbeNum_notFound_iff (probe : Nat → List Nat → GetResult) (key : List Nat)
    (xs : List Nat) :
    (firstProbeNum probe key xs).2 = some DBError.ErrNotFound ↔
      ∀ n ∈ xs, (probe n key).2 = some DBError.ErrNotFound := by
  induction xs with
  | nil => simp [firstProbeNum]
  | cons n rest ih =>
    simp only [firstProbeNum, List.mem_cons, forall_eq_or_imp]
    by_cases h : (probe n key).2 = some DBError.ErrNotFound
    · simp only [h, ne_eq, not_true_eq_false, if_false, true_and]
      exact ih
    · simp [h]

theorem probeFiles_none_iff (probe : Nat → List Nat → GetResult) (key : List Nat)
    (cands : List FileMetaData) :
    probeFiles probe key cands = none ↔
      ∀ n ∈ cands.map (fun f => f.number), (probe n key).2 = some DBError.ErrNotFound := by
  induction cands with
  | nil => simp [probeFiles]
  | cons f rest ih =>
    simp only [probeFiles, List.map_cons, List.mem_cons, forall_eq_or_imp]
    by_cases h : (probe f.number key).2 = some DBError.ErrNotFound
    · simp only [h, ne_eq, not_true_eq_false, if_false, true_and]
      exact ih
    · simp [h]

theorem probeFiles_some (probe : Nat → List Nat → GetResult) (key : List Nat)
    (cands : List FileMetaData) (r : GetResult) (h : probeFiles probe key cands = some r) :
    r = firstProbeNum probe key (cands.map (fun f => f.number)) := by
  induction cands with
  | nil => simp [probeFiles] at h
  | cons f rest ih =>
    simp only [probeFiles] at h
    simp only [List.map_cons, firstProbeNum]
    by_cases hp : (probe f.number key).2 = some DBError.ErrNotFound
    · simp only [hp, ne_eq, not_true_eq_false, if_false] at h ⊢
      exact ih h
    · simp only [ne_eq, hp, not_false_eq_true, if_true] at h ⊢
      exact (Option.some.inj h).symm

/-- The level loop probes the candidate slices of the levels one after the other. -/
theorem getLevels_eq (probe : Nat → List Nat → GetResult) (v : Version) (key : List Nat)
    (levels : List Nat) :
    getLevels probe v key levels =
      firstProbeNum probe key
        ((levels.flatMap (fun l => getLevelFiles v l key)).map (fun f => f.number)) := by
  induction levels with
  | nil => rfl
  | cons level rest ih =>
    simp only [getLevels, List.flatMap_cons, List.map_append]
    rw [firstProbeNum_append]
    cases hp : probeFiles probe key (getLevelFiles v level key) with
    | none =>
      rw [if_pos ((probeFiles_none_iff probe key _).mp hp)]
      exact ih
    | some r =>
      have hne : ¬ ∀ n ∈ (getLevelFiles v level key).map (fun f => f.number),
          (probe n key).2 = some DBError.ErrNotFound := by
        intro hall
        have := (probeFiles_none_iff probe key _).mpr hall
        rw [hp] at this
        cases this
      rw [if_neg hne]
      exact probeFiles_some probe key _ r hp

theorem level0Overlapping_eq (files : List FileMetaData) (key : List Nat) :
    level0Overlapping files key = level0Containing files key := by
  unfold level0Overlapping level0Containing
  congr 1
  funext f
  simp [ukc_nonneg_iff, ukc_nonpos_iff]

theorem getLevelFiles_zero (v : Version) (key : List Nat) :
    getLevelFiles v 0 key = sortByNumberDesc (level0Containing (v.files 0) key) := by
  unfold getLevelFiles
  simp only [if_true]
  split_ifs with h
  · have : v.files 0 = [] := List.length_eq_zero.mp h
    simp [this, level0Containing, sortByNumberDesc]
  · rw [level0Overlapping_eq]

theorem getLevelFiles_deep (v : Version) (key : List Nat) (level : Nat) (hl : 1 ≤ level) :
    getLevelFiles v level key = levelCandidate v key level := by
  unfold getLevelFiles levelCandidate
  have h0 : level ≠ 0 := by omega
  simp only [h0, if_false]
  split_ifs with hn hi
  · have : v.files level = [] := List.length_eq_zero.mp hn
    simp [this]
  · rw [List.getElem?_eq_none hi]
  · cases hget : (v.files level)[findFile (v.files level) key]? with
    | none => rfl
    | some f =>
      simp only [ukc_neg_iff]
      by_cases hk : key < f.smallest.UserKey
      · simp [hk, not_le.mpr hk]
      · simp [hk, not_lt.mp hk]

/-- Two descending arrangements of the same files list the same numbers. -/
theorem numbers_of_sorted_perm (xs ys : List FileMetaData) (hperm : xs.Perm ys)
    (hx : xs.Pairwise (fun a b => b.number ≤ a.number))
    (hy : ys.Pairwise (fun a b => b.number ≤ a.number)) :
    xs.map (fun f => f.number) = ys.map (fun f => f.number) := by
  have hpm : (xs.map (fun f => f.number)).Perm (ys.map (fun f => f.number)) := hperm.map _
  have hsx : (xs.map (fun f => f.number)).Sorted (fun a b => b ≤ a) :=
    List.pairwise_map.mpr hx
  have hsy : (ys.map (fun f => f.number)).Sorted (fun a b => b ≤ a) :=
    List.pairwise_map.mpr hy
  haveI : IsAntisymm Nat (fun a b => b ≤ a) := ⟨fun a b h1 h2 => Nat.le_antisymm h2 h1⟩
  exact List.eq_of_perm_of_sorted hpm hsx hsy

theorem get_eq_firstProbeNum (probe : Nat → List Nat → GetResult) (v : Version)
    (key : List Nat) (c0 : List FileMetaData)
    (hperm : c0.Perm (level0Containing (v.files 0) key))
    (hsort : c0.Pairwise (fun a b => b.number ≤ a.number)) :
    Get probe v key =
      firstProbeNum probe key ((c0 ++ deeperCandidates v key).map (fun f => f.number)) := by
  unfold Get
  rw [getLevels_eq]
  have hr : List.range NumLevels = 0 :: List.range' 1 (NumLevels - 1) := by decide
  rw [hr, List.flatMap_cons, getLevelFiles_zero]
  have hdeep : (List.range' 1 (NumLevels - 1)).flatMap (fun l => getLevelFiles v l key) =
      deeperCandidates v key := by
    unfold deeperCandidates
    apply List.flatMap_congr
    intro l hl
    exact getLevelFiles_deep v key l (List.mem_range'_1.mp hl).1
  rw [hdeep, List.map_append, List.map_append]
  congr 2
  apply numbers_of_sorted_perm
  · exact (List.perm_insertionSort _ _).trans hperm.symm
  · haveI : IsTotal FileMetaData (fun a b => b.number ≤ a.number) :=
      ⟨fun a b => Nat.le_total b.number a.number⟩
    haveI : IsTrans FileMetaData (fun a b => b.number ≤ a.number) :=
      ⟨fun _ _ _ h1 h2 => Nat.le_trans h2 h1⟩
    exact List.sorted_insertionSort (fun a b : FileMetaData => b.number ≤ a.number) _
  · exact hsort

/-- Claim C2. With the table probe a function of the file number and the key,
`Get` returns the result of the first probe that is not `ErrNotFound` along the
candidates in this order: the level-0 files whose user-key range contains the
key, by descending number (any such arrangement `c0`), then for each level
`1 .. NumLevels-1` the file at index `findFile(files[L], key)` when in range and
not starting after the key. `Get` reports `ErrNotFound` exactly when every
candidate's probe does (in particular when there is no candidate). -/
theorem Get_first_probe (probe : Nat → List Nat → GetResult) (v : Version)
    (key : List Nat) (c0 : List FileMetaData)
    (hperm : c0.Perm (level0Containing (v.files 0) key))
    (hsort : c0.Pairwise (fun a b => b.number ≤ a.number)) :
    Get probe v key = firstProbe probe key (c0 ++ deeperCandidates v key) ∧
    ((Get probe v key).2 = some DBError.ErrNotFound ↔
      ∀ f ∈ c0 ++ deeperCandidates v key,
        (probe f.number key).2 = some DBError.ErrNotFound) := by
  have h := get_eq_firstProbeNum probe v key c0 hperm hsort
  refine ⟨?_, ?_⟩
  · rw [h, firstProbe_eq_num]
  · rw [h, firstProbeNum_notFound_iff]
    simp only [List.mem_map, forall_exists_index, and_imp, forall_apply_eq_imp_iff₂]

/-- Witness of claim C2: two level-0 files contain the key `[2]`; the newer one
(number 7) misses, the older one (number 3) answers, and level 1 is not reached. -/
theorem Get_first_probe_witness :
    Get lookupProbe lookupVersion [2] = ([30], none) ∧
    (Get lookupProbe lookupVersion [2] =
      firstProbe lookupProbe [2]
        ([mkFile 7 100 [2] [9], mkFile 3 100 [1] [5]] ++ deeperCandidates lookupVersion [2]) ∧
    ((Get lookupProbe lookupVersion [2]).2 = some DBError.ErrNotFound ↔
      ∀ f ∈ [mkFile 7 100 [2] [9], mkFile 3 100 [1] [5]] ++ deeperCandidates lookupVersion [2],
        (lookupProbe f.number [2]).2 = some DBError.ErrNotFound)) :=
  ⟨by decide,
    Get_first_probe lookupProbe lookupVersion [2] [mkFile 7 100 [2] [9], mkFile 3 100 [1] [5]]
      (by decide) (by decide)⟩

/-! ## `addFile` and `deleteFile` on a sorted level -/

theorem levelSorted_iff (files : List FileMetaData) :
    LevelSorted files ↔ DisjointAscending files := by
  unfold LevelSorted DisjointAscending WellFormedRange RangesOverlap
  constructor
  · rintro ⟨hwf, hs, hd⟩
    refine ⟨hwf, ?_⟩
    have := (List.pairwise_and_iff.mpr ⟨hs, hd⟩)
    refine List.Pairwise.imp_of_mem ?_ this
    intro f g _ hg h
    have hgw := hwf g hg
    by_contra hc
    exact h.2 ⟨le_trans h.1 hgw, not_lt.mp hc⟩
  · rintro ⟨hwf, hc⟩
    refine ⟨hwf, ?_, ?_⟩
    · refine List.Pairwise.imp_of_mem ?_ hc
      intro f g hf _ h
      exact le_of_lt (lt_of_le_of_lt (hwf f hf) h)
    · refine List.Pairwise.imp ?_ hc
      intro f g h hov
      exact absurd hov.2 (not_le.mpr h)

theorem disjointAscending_sortedByLargest (files : List FileMetaData)
    (h : DisjointAscending files) : SortedByLargest files := by
  unfold SortedByLargest
  refine List.Pairwise.imp_of_mem ?_ h.2
  intro f g _ hg hlt
  exact le_of_lt (lt_of_lt_of_le hlt (h.1 g hg))

/-- The index returned by `findFile` splits a slice ordered by largest user key:
every file before it ends below the key, every file from it on ends at or above. -/
theorem findFile_split (files : List FileMetaData) (key : List Nat)
    (hs : SortedByLargest files) :
    findFile files key ≤ files.length ∧
    (∀ f ∈ files.take (findFile files key), f.largest.UserKey < key) ∧
    (∀ f ∈ files.drop (findFile files key), key ≤ f.largest.UserKey) := by
  unfold findFile
  have h := findFileLoop_spec files key hs files.length 0 files.length (by omega) (by omega)
    (le_refl _) (by intro j f hj; omega)
    (by
      intro j f hj hf
      have := (List.getElem?_eq_some.mp hf).1
      omega)
  obtain ⟨h1, h2, h3⟩ := h
  refine ⟨h1, ?_, ?_⟩
  · intro f hf
    obtain ⟨j, hj, rfl⟩ := List.getElem_of_mem hf
    rw [List.length_take] at hj
    rw [List.getElem_take]
    exact h2 j _ (by omega) (List.getElem?_eq_getElem (by omega))
  · intro f hf
    obtain ⟨j, hj, rfl⟩ := List.getElem_of_mem hf
    rw [List.length_drop] at hj
    rw [List.getElem_drop]
    exact h3 _ _ (by omega) (List.getElem?_eq_getElem (by omega))

theorem insertIntoLevel_eq (meta : FileMetaData) (files : List FileMetaData) :
    insertIntoLevel meta files =
      files.take (findFile files meta.smallest.UserKey) ++
        meta :: files.drop (findFile files meta.smallest.UserKey) := by
  unfold insertIntoLevel
  simp only
  split_ifs with h
  · rw [List.take_of_length_le h, List.drop_of_length_le h]
  · simp

theorem insertIntoLevel_disjointAscending (meta : FileMetaData) (files : List FileMetaData)
    (hs : DisjointAscending files) (hm : WellFormedRange meta)
    (hd : ∀ f ∈ files, ¬ RangesOverlap meta f) :
    DisjointAscending (insertIntoLevel meta files) := by
  rw [insertIntoLevel_eq]
  obtain ⟨_, hlo, hhi⟩ := findFile_split files meta.smallest.UserKey
    (disjointAscending_sortedByLargest files hs)
  have hsplit := List.take_append_drop (findFile files meta.smallest.UserKey) files
  obtain ⟨hwf, hpw⟩ := hs
  rw [← hsplit] at hpw
  obtain ⟨hpt, hpd, hptd⟩ := List.pairwise_append.mp hpw
  refine ⟨?_, ?_⟩
  · intro f hf
    rcases List.mem_append.mp hf with h | h
    · exact hwf f (List.mem_of_mem_take h)
    · rcases List.mem_cons.mp h with h | h
      · rw [h]
        exact hm
      · exact hwf f (List.mem_of_mem_drop h)
  · refine List.pairwise_append.mpr ⟨hpt, ?_, ?_⟩
    · refine List.pairwise_cons.mpr ⟨?_, hpd⟩
      intro g hg
      have hge := hhi g hg
      have hno := hd g (List.mem_of_mem_drop hg)
      unfold RangesOverlap at hno
      by_contra hc
      exact hno ⟨hge, not_lt.mp hc⟩
    · intro f hf g hg
      rcases List.mem_cons.mp hg with h | h
      · rw [h]
        exact hlo f hf
      · exact hptd f hf g h

theorem deleteFromLevel_sublist (number : Nat) (files : List FileMetaData) :
    (deleteFromLevel number files).Sublist files := by
  induction files with
  | nil => exact List.Sublist.refl _
  | cons f rest ih =>
    simp only [deleteFromLevel]
    split_ifs with h
    · exact List.sublist_cons_self f rest
    · exact ih.cons₂ f

theorem deleteFromLevel_disjointAscending (number : Nat) (files : List FileMetaData)
    (hs : DisjointAscending files) : DisjointAscending (deleteFromLevel number files) := by
  have hsub := deleteFromLevel_sublist number files
  exact ⟨fun f hf => hs.1 f (hsub.subset hf), hs.2.sublist hsub⟩

theorem addFile_files_deep (v : Version) (level : Nat) (meta : FileMetaData)
    (hl : 1 ≤ level) :
    (addFile v level meta).files level = insertIntoLevel meta (v.files level) := by
  unfold addFile
  have h0 : level ≠ 0 := by omega
  simp [h0]

theorem deleteFile_files (v : Version) (level : Nat) (meta : FileMetaData) :
    (deleteFile v level meta).files level = deleteFromLevel meta.number (v.files level) := by
  simp [deleteFile]

theorem applyOps_disjointAscending (level : Nat) (hl : 1 ≤ level) (ops : List FileOp) :
    ∀ v : Version, DisjointAscending (v.files level) → OpsDisjoint level v ops →
      DisjointAscending ((applyOps level v ops).files level) := by
  induction ops with
  | nil =>
    intro v hs _
    exact hs
  | cons op rest ih =>
    intro v hs hd
    cases op with
    | add meta =>
      obtain ⟨hm, hno, hrest⟩ := hd
      have : applyOps level v (FileOp.add meta :: rest) =
          applyOps level (addFile v level meta) rest := rfl
      rw [this]
      apply ih _ _ hrest
      rw [addFile_files_deep v level meta hl]
      exact insertIntoLevel_disjointAscending meta _ hs hm hno
    | delete meta =>
      have : applyOps level v (FileOp.delete meta :: rest) =
          applyOps level (deleteFile v level meta) rest := rfl
      rw [this]
      apply ih _ _ hd
      rw [deleteFile_files]
      exact deleteFromLevel_disjointAscending _ _ hs

/-- Claim C5, refuted as stated: level 1 holds the single file `[2..4]`, sorted and
without overlap; `addFile(1, [3..5])` (a well-formed range) inserts the new
file at index `findFile(files, [3]) = 0`, in front of `[2..4]`, and the level
is neither sorted by smallest user key nor free of overlap afterwards. -/
theorem addFile_overlapping_breaks_sorted :
    LevelSorted (boundaryVersion.files 1) ∧
    OpsWellFormed [FileOp.add (mkFile 2 100 [3] [5])] ∧
    (applyOps 1 boundaryVersion [FileOp.add (mkFile 2 100 [3] [5])]).files 1 =
      [mkFile 2 100 [3] [5], mkFile 1 100 [2] [4]] ∧
    ¬ LevelSorted ((applyOps 1 boundaryVersion [FileOp.add (mkFile 2 100 [3] [5])]).files 1) := by
  refine ⟨?_, ?_, ?_, ?_⟩
  · unfold LevelSorted WellFormedRange RangesOverlap
    decide
  · intro meta h
    simp only [List.mem_singleton, FileOp.add.injEq] at h
    subst h
    unfold WellFormedRange
    decide
  · decide
  · unfold LevelSorted WellFormedRange RangesOverlap
    decide

/-- Claim C5, amended. On a level `≥ 1` that is sorted by smallest user key with
well-formed, pairwise non-overlapping ranges, every finite sequence of
`addFile` / `deleteFile` calls in which each added file has a well-formed range
that overlaps no file of the level at the moment of its call leaves the level
sorted by smallest user key with pairwise non-overlapping ranges. -/
theorem addFile_deleteFile_keep_sorted (level : Nat) (hl : 1 ≤ level) (v : Version)
    (ops : List FileOp) (hs : LevelSorted (v.files level))
    (hd : OpsDisjoint level v ops) :
    LevelSorted ((applyOps level v ops).files level) := by
  rw [levelSorted_iff] at hs ⊢
  exact applyOps_disjointAscending level hl ops v hs hd

/-- Witness of the amended claim C5: add `[6..8]`, delete file 1, add `[1..5]` on
level 1 of a version holding `[2..4]`. -/
theorem addFile_deleteFile_keep_sorted_witness :
    (applyOps 1 boundaryVersion disjointOps).files 1 =
      [mkFile 3 100 [1] [5], mkFile 2 100 [6] [8]] ∧
    LevelSorted ((applyOps 1 boundaryVersion disjointOps).files 1) :=
  ⟨by decide,
    addFile_deleteFile_keep_sorted 1 (by decide) boundaryVersion disjointOps
      (by unfold LevelSorted WellFormedRange RangesOverlap; decide)
      (by unfold disjointOps; simp only [OpsDisjoint]; unfold WellFormedRange RangesOverlap; decide)⟩

/-! ## Descriptor round trip -/

theorem length_putUintLE (n x : Nat) : (putUintLE n x).length = n := by
  induction n generalizing x with
  | zero => rfl
  | succ n ih => simp [putUintLE, ih]

theorem getUintLE_putUintLE (n x : Nat) (h : x < 256 ^ n) :
    getUintLE (putUintLE n x) = x := by
  induction n generalizing x with
  | zero =>
    simp only [pow_zero, Nat.lt_one_iff] at h
    simp [putUintLE, getUintLE, h]
  | succ n ih =>
    simp only [putUintLE, getUintLE]
    have hx : x / 256 < 256 ^ n := by
      rw [Nat.div_lt_iff_lt_mul (by norm_num)]
      rw [pow_succ] at h
      exact h
    rw [ih _ hx]
    omega

theorem readBytes_append (bs rest : List Nat) :
    readBytes bs.length (bs ++ rest) = some (bs, rest) := by
  simp [readBytes]

theorem binaryRead_put (n x old : Nat) (rest : List Nat) (h : x < 256 ^ n) :
    binaryRead n (putUintLE n x ++ rest) old = (x, rest) := by
  have hl := length_putUintLE n x
  unfold binaryRead
  rw [if_pos (by simp [hl])]
  have h1 : (putUintLE n x ++ rest).take n = putUintLE n x := by
    have := List.take_left (putUintLE n x) rest
    rw [hl] at this
    exact this
  have h2 : (putUintLE n x ++ rest).drop n = rest := by
    have := List.drop_left (putUintLE n x) rest
    rw [hl] at this
    exact this
  rw [h1, h2, getUintLE_putUintLE n x h]

theorem readBytes_put (n x : Nat) (rest : List Nat) :
    readBytes n (putUintLE n x ++ rest) = some (putUintLE n x, rest) := by
  have h := readBytes_append (putUintLE n x) rest
  rw [length_putUintLE] at h
  exact h

theorem internalKey_decode_encode (k : InternalKey) (rest : List Nat) (hk : KeyEncodable k) :
    InternalKey.DecodeFrom (k.EncodeTo ++ rest) = (k, rest, true) := by
  obtain ⟨h1, h2, h3, h4⟩ := hk
  unfold InternalKey.DecodeFrom InternalKey.EncodeTo
  simp only [List.append_assoc]
  rw [readBytes_put]
  simp only
  rw [getUintLE_putUintLE 4 _ (by norm_num; exact h1), readBytes_append]
  simp only
  rw [readBytes_put]
  simp only
  rw [readBytes_put]
  simp only
  rw [readBytes_put]
  simp only
  rw [getUintLE_putUintLE 4 _ (by rw [h4]; norm_num), readBytes_append]
  simp only
  rw [getUintLE_putUintLE 8 _ (by norm_num; exact h2),
    getUintLE_putUintLE 1 _ (by norm_num; exact h3)]

theorem fileMetaData_decode_encode (f : FileMetaData) (rest : List Nat)
    (hf : MetaEncodable f) :
    FileMetaData.DecodeFrom (f.EncodeTo ++ rest) = (f, rest) := by
  obtain ⟨h1, h2, h3, h4, h5⟩ := hf
  unfold FileMetaData.DecodeFrom FileMetaData.EncodeTo
  simp only [List.append_assoc]
  rw [binaryRead_put 8 _ 0 _ (by norm_num; exact h1)]
  simp only
  rw [binaryRead_put 8 _ 0 _ (by norm_num; exact h2)]
  simp only
  rw [binaryRead_put 8 _ 0 _ (by norm_num; exact h3)]
  simp only
  rw [internalKey_decode_encode _ _ h4]
  simp only
  rw [internalKey_decode_encode _ _ h5]

theorem decodeFiles_encode (fs : List FileMetaData) (rest : List Nat)
    (hfs : ∀ f ∈ fs, MetaEncodable f) :
    decodeFiles fs.length (fs.flatMap FileMetaData.EncodeTo ++ rest) = (fs, rest) := by
  induction fs with
  | nil => rfl
  | cons f tl ih =>
    simp only [List.length_cons, decodeFiles, List.flatMap_cons, List.append_assoc]
    rw [fileMetaData_decode_encode f _ (hfs f (List.mem_cons_self f tl))]
    simp only
    rw [ih (fun g hg => hfs g (List.mem_cons_of_mem f hg))]

theorem binaryReadInt32_put (n : Nat) (old : Int) (rest : List Nat) (h : n < 2 ^ 31) :
    binaryReadInt32 (putUintLE 4 n ++ rest) old = ((n : Int), rest) := by
  have hl := length_putUintLE 4 n
  unfold binaryReadInt32
  rw [if_pos (by simp [hl])]
  have h1 : (putUintLE 4 n ++ rest).take 4 = putUintLE 4 n := by
    have := List.take_left (putUintLE 4 n) rest
    rw [hl] at this
    exact this
  have h2 : (putUintLE 4 n ++ rest).drop 4 = rest := by
    have := List.drop_left (putUintLE 4 n) rest
    rw [hl] at this
    exact this
  rw [h1, h2, getUintLE_putUintLE 4 n (by norm_num; omega)]
  unfold toInt32
  rw [if_pos h]

/-- The files a level must hold for the descriptor layout to carry it. -/
theorem decodeLevels_encode (v : Version) (levels : List Nat)
    (hv : ∀ level ∈ levels, (v.files level).length < 2 ^ 31 ∧
      ∀ f ∈ v.files level, MetaEncodable f) :
    ∀ (v0 : Version) (rest : List Nat) (numFiles : Int),
      ∃ v1, decodeLevels levels v0
          (levels.flatMap (fun level => encodeLevel (v.files level)) ++ rest) numFiles =
            some (v1, rest) ∧
        v1.nextFileNumber = v0.nextFileNumber ∧ v1.seq = v0.seq ∧
        v1.compactPointer = v0.compactPointer ∧
        (∀ level ∈ levels, v1.files level = v.files level) ∧
        (∀ level, level ∉ levels → v1.files level = v0.files level) := by
  induction levels with
  | nil =>
    intro v0 rest numFiles
    exact ⟨v0, rfl, rfl, rfl, rfl, by simp, by simp⟩
  | cons level tl ih =>
    intro v0 rest numFiles
    obtain ⟨hlen, hfs⟩ := hv level (List.mem_cons_self level tl)
    simp only [decodeLevels, List.flatMap_cons, encodeLevel, List.append_assoc]
    rw [binaryReadInt32_put _ _ _ hlen]
    simp only
    rw [if_neg (by omega), Int.toNat_ofNat, decodeFiles_encode _ _ hfs]
    simp only
    obtain ⟨v1, hdec, hn, hs, hc, hin, hout⟩ :=
      ih (fun l hl => hv l (List.mem_cons_of_mem level hl))
        { v0 with files := Function.update v0.files level (v.files level) } rest
        (v.files level).length
    simp only [encodeLevel] at hdec
    refine ⟨v1, hdec, hn, hs, hc, ?_, ?_⟩
    · intro l hl
      by_cases hmem : l ∈ tl
      · exact hin l hmem
      · have hl2 : l = level := by
          rcases List.mem_cons.mp hl with h | h
          · exact h
          · exact absurd h hmem
        rw [hout l hmem, hl2]
        simp
    · intro l hl
      have hne : l ≠ level := fun h => hl (h ▸ List.mem_cons_self level tl)
      have hnt : l ∉ tl := fun h => hl (List.mem_cons_of_mem level h)
      rw [hout l hnt]
      simp [Function.update, hne]

/-- Claim C4. For a version whose integers are `uint64` values, whose per-level
file counts fit in `int32` and whose keys fit the layout (lengths in `u32`,
empty user value), decoding the bytes of `Version.EncodeTo` with
`Version.DecodeFrom` into a fresh version consumes them all and yields the same
`nextFileNumber`, the same `seq` and, on every level, the same files in the
same order; `compactPointer` is the fresh version's (empty), not the encoded
version's. -/
theorem descriptor_roundtrip (v : Version) (hn : v.nextFileNumber < 2 ^ 64)
    (hs : v.seq < 2 ^ 64)
    (hv : ∀ level, level < NumLevels →
      (v.files level).length < 2 ^ 31 ∧ ∀ f ∈ v.files level, MetaEncodable f) :
    ∃ v1, Version.DecodeFrom New v.EncodeTo = some (v1, []) ∧
      v1.nextFileNumber = v.nextFileNumber ∧ v1.seq = v.seq ∧
      (∀ level, level < NumLevels → v1.files level = v.files level) ∧
      (∀ level, v1.compactPointer level = none) := by
  unfold Version.DecodeFrom Version.EncodeTo
  simp only [List.append_assoc]
  rw [binaryRead_put 8 _ _ _ (by norm_num; exact hn)]
  simp only
  rw [binaryRead_put 8 _ _ _ (by norm_num; exact hs)]
  simp only
  obtain ⟨v1, hdec, h1, h2, h3, h4, _⟩ :=
    decodeLevels_encode v (List.range NumLevels)
      (fun l hl => hv l (List.mem_range.mp hl))
      { New with nextFileNumber := v.nextFileNumber, seq := v.seq } [] 0
  rw [List.append_nil] at hdec
  refine ⟨v1, hdec, h1, h2, fun l hl => h4 l (List.mem_range.mpr hl), ?_⟩
  intro l
  rw [h3]
  rfl

/-- Witness of claim C4 on a version with three files and a compaction pointer
on level 1, which the decoded version does not have. -/
theorem descriptor_roundtrip_witness :
    descriptorVersion.compactPointer 1 = some (mkKey [3] 1) ∧
    ∃ v1, Version.DecodeFrom New descriptorVersion.EncodeTo = some (v1, []) ∧
      v1.nextFileNumber = descriptorVersion.nextFileNumber ∧ v1.seq = descriptorVersion.seq ∧
      (∀ level, level < NumLevels → v1.files level = descriptorVersion.files level) ∧
      (∀ level, v1.compactPointer level = none) :=
  ⟨by decide, descriptor_roundtrip descriptorVersion (by decide) (by decide) (by decide)⟩

/-! ## `pickCompactionLevel` -/

theorem scanState_step (fl : ℚ → ℚ) (v : Version) (n : Nat) (st : Int × ℚ)
    (h : ScanState fl v n st) : ScanState fl v (n + 1) (pickLevelStep fl v st n) := by
  unfold pickLevelStep
  rcases h with ⟨h1, h2, h3⟩ | ⟨L, hL, h1, h2, h3, h4, h5⟩
  · split_ifs with hlt
    · right
      rw [h2] at hlt
      refine ⟨n, Nat.lt_succ_self n, rfl, rfl, hlt, ?_, ?_⟩
      · intro K hK
        rcases Nat.lt_succ_iff_lt_or_eq.mp hK with hk | hk
        · exact le_of_lt (lt_of_le_of_lt (h3 K hk) hlt)
        · rw [hk]
      · intro K hK
        exact lt_of_le_of_lt (h3 K hK) hlt
    · left
      rw [h2] at hlt
      refine ⟨h1, h2, ?_⟩
      intro K hK
      rcases Nat.lt_succ_iff_lt_or_eq.mp hK with hk | hk
      · exact h3 K hk
      · rw [hk]
        exact not_lt.mp hlt
  · split_ifs with hlt
    · right
      rw [h2] at hlt
      refine ⟨n, Nat.lt_succ_self n, rfl, rfl, lt_trans h3 hlt, ?_, ?_⟩
      · intro K hK
        rcases Nat.lt_succ_iff_lt_or_eq.mp hK with hk | hk
        · exact le_of_lt (lt_of_le_of_lt (h4 K hk) hlt)
        · rw [hk]
      · intro K hK
        exact lt_of_le_of_lt (h4 K hK) hlt
    · right
      rw [h2] at hlt
      refine ⟨L, Nat.lt_succ_of_lt hL, h1, h2, h3, ?_, h5⟩
      intro K hK
      rcases Nat.lt_succ_iff_lt_or_eq.mp hK with hk | hk
      · exact h4 K hk
      · rw [hk]
        exact not_lt.mp hlt

theorem scanState_range (fl : ℚ → ℚ) (v : Version) (n : Nat) :
    ScanState fl v n ((List.range n).foldl (pickLevelStep fl v) (-1, 1)) := by
  induction n with
  | zero =>
    left
    exact ⟨rfl, rfl, fun L hL => absurd hL (Nat.not_lt_zero L)⟩
  | succ n ih =>
    rw [List.range_succ, List.foldl_append]
    exact scanState_step fl v n _ ih

/-- The result of `pickCompactionLevel`: -1 when no scanned level scores above
1, else the first scanned level of maximal score. -/
theorem pickCompactionLevel_spec (fl : ℚ → ℚ) (v : Version) :
    (pickCompactionLevel fl v = -1 ∧ ∀ L, L < NumLevels - 1 → levelScore fl v L ≤ 1) ∨
    (∃ L, L < NumLevels - 1 ∧ pickCompactionLevel fl v = (L : Int) ∧
      1 < levelScore fl v L ∧
      (∀ K, K < NumLevels - 1 → levelScore fl v K ≤ levelScore fl v L) ∧
      (∀ K, K < L → levelScore fl v K < levelScore fl v L)) := by
  unfold pickCompactionLevel
  rcases scanState_range fl v (NumLevels - 1) with ⟨h1, _, h3⟩ | ⟨L, hL, h1, _, h3, h4, h5⟩
  · left
    exact ⟨h1, h3⟩
  · right
    exact ⟨L, hL, h1, h3, h4, h5⟩

theorem maxBytesForLevel_exact (level : Nat) :
    maxBytesForLevel id (level + 1) = 10485760 * 10 ^ level := by
  induction level with
  | zero => simp [maxBytesForLevel]
  | succ n ih =>
    rw [maxBytesForLevel, if_neg (Nat.succ_ne_zero n), ih, pow_succ]
    simp only [id]
    ring

theorem levelScore_exact (v : Version) :
    levelScore id v 0 = ((v.files 0).length : ℚ) / 4 ∧
    (∀ L, 1 ≤ L → levelScore id v L =
      (totalFileSize (v.files L) : ℚ) / (10485760 * 10 ^ (L - 1))) := by
  refine ⟨?_, ?_⟩
  · simp [levelScore, L0_CompactionTrigger]
  · intro L hL
    obtain ⟨n, rfl⟩ : ∃ n, L = n + 1 := ⟨L - 1, by omega⟩
    unfold levelScore
    rw [if_neg (Nat.succ_ne_zero n), maxBytesForLevel_exact]
    simp

/-! ## `float64` rounding -/

theorem roundF64_zero : roundF64 0 = 0 := by
  simp [roundF64]

theorem int_log_two_eq (q : ℚ) (e : ℤ) (h1 : (2 : ℚ) ^ e ≤ q) (h2 : q < (2 : ℚ) ^ (e + 1)) :
    Int.log 2 q = e := by
  have hq : 0 < q := lt_of_lt_of_le (zpow_pos (by norm_num) e) h1
  have ha : e ≤ Int.log 2 q := by
    apply (Int.zpow_le_iff_le_log (by norm_num : 1 < 2) hq).mp
    simpa using h1
  have hb : Int.log 2 q < e + 1 := by
    apply (Int.lt_zpow_iff_log_lt (by norm_num : 1 < 2) hq).mp
    simpa using h2
  omega

theorem roundHalfEven_of_floor (x : ℚ) (m : ℤ) (h1 : (m : ℚ) ≤ x) (h2 : x < m + 1) :
    roundHalfEven x =
      if x - m < 1 / 2 then m else if 1 / 2 < x - m then m + 1
      else if m % 2 = 0 then m else m + 1 := by
  have hf : ⌊x⌋ = m := Int.floor_eq_iff.mpr ⟨h1, h2⟩
  unfold roundHalfEven
  rw [Int.fract, hf]

/-- The value of `roundF64` on a positive rational of binary exponent `e` whose
quotient by the unit `2^(e-52)` has integer part `m`. -/
theorem roundF64_of_floor (q : ℚ) (e m : ℤ) (h1 : (2 : ℚ) ^ e ≤ q) (h2 : q < (2 : ℚ) ^ (e + 1))
    (hm1 : (m : ℚ) ≤ q / (2 : ℚ) ^ (e - 52)) (hm2 : q / (2 : ℚ) ^ (e - 52) < m + 1) :
    roundF64 q =
      ((if q / (2 : ℚ) ^ (e - 52) - m < 1 / 2 then m
        else if 1 / 2 < q / (2 : ℚ) ^ (e - 52) - m then m + 1
        else if m % 2 = 0 then m else m + 1 : ℤ) : ℚ) * (2 : ℚ) ^ (e - 52) := by
  have hq : 0 < q := lt_of_lt_of_le (zpow_pos (by norm_num) e) h1
  unfold roundF64
  rw [if_neg (ne_of_gt hq), abs_of_pos hq, int_log_two_eq q e h1 h2,
    roundHalfEven_of_floor _ m hm1 hm2]

/-- A rational with a 53-bit significand is its own `float64` value. -/
theorem roundF64_exact (m e : ℤ) (h1 : 2 ^ 52 ≤ m) (h2 : m < 2 ^ 53) :
    roundF64 ((m : ℚ) * (2 : ℚ) ^ (e - 52)) = (m : ℚ) * (2 : ℚ) ^ (e - 52) := by
  have hu : (0 : ℚ) < (2 : ℚ) ^ (e - 52) := zpow_pos (by norm_num) _
  have hm1 : ((2 : ℚ) ^ (52 : ℕ)) ≤ (m : ℚ) := by exact_mod_cast h1
  have hm2 : (m : ℚ) < (2 : ℚ) ^ (53 : ℕ) := by exact_mod_cast h2
  have hdiv : (m : ℚ) * (2 : ℚ) ^ (e - 52) / (2 : ℚ) ^ (e - 52) = m := by
    field_simp
  have he1 : (2 : ℚ) ^ e = (2 : ℚ) ^ (52 : ℕ) * (2 : ℚ) ^ (e - 52) := by
    rw [← zpow_natCast, ← zpow_add₀ (by norm_num : (2 : ℚ) ≠ 0)]
    congr 1
    omega
  have he2 : (2 : ℚ) ^ (e + 1) = (2 : ℚ) ^ (53 : ℕ) * (2 : ℚ) ^ (e - 52) := by
    rw [← zpow_natCast, ← zpow_add₀ (by norm_num : (2 : ℚ) ≠ 0)]
    congr 1
    omega
  rw [roundF64_of_floor _ e m
    (by rw [he1]; exact mul_le_mul_of_nonneg_right hm1 (le_of_lt hu))
    (by rw [he2]; exact mul_lt_mul_of_pos_right hm2 hu)
    (by rw [hdiv]) (by rw [hdiv]; linarith)]
  rw [hdiv]
  simp

/-- Every natural number below `2^53` is its own `float64` value. -/
theorem roundF64_natCast (n : ℕ) (h : n < 2 ^ 53) : roundF64 (n : ℚ) = n := by
  rcases Nat.eq_zero_or_pos n with h0 | hpos
  · subst h0
    simp [roundF64_zero]
  · have hlog1 : 2 ^ Nat.log 2 n ≤ n := Nat.pow_log_le_self 2 (by omega)
    have hlog2 : n < 2 ^ (Nat.log 2 n + 1) := Nat.lt_pow_succ_log_self (by norm_num) n
    have hle : Nat.log 2 n ≤ 52 := by
      have := Nat.log_lt_of_lt_pow (by omega) h
      omega
    obtain ⟨k, hk⟩ : ∃ k, Nat.log 2 n + k = 52 := ⟨52 - Nat.log 2 n, by omega⟩
    have key := roundF64_exact ((n * 2 ^ k : ℕ) : ℤ) (Nat.log 2 n : ℤ)
      (by
        have : 2 ^ 52 ≤ n * 2 ^ k := by
          calc 2 ^ 52 = 2 ^ Nat.log 2 n * 2 ^ k := by rw [← pow_add, hk]
            _ ≤ n * 2 ^ k := Nat.mul_le_mul_right _ hlog1
        exact_mod_cast this)
      (by
        have : n * 2 ^ k < 2 ^ 53 := by
          calc n * 2 ^ k < 2 ^ (Nat.log 2 n + 1) * 2 ^ k :=
                Nat.mul_lt_mul_of_pos_right hlog2 (by positivity)
            _ = 2 ^ 53 := by rw [← pow_add]; congr 1; omega
        exact_mod_cast this)
    have heq : (((n * 2 ^ k : ℕ) : ℤ) : ℚ) * (2 : ℚ) ^ ((Nat.log 2 n : ℤ) - 52) = (n : ℚ) := by
      have hexp : ((Nat.log 2 n : ℤ) - 52) = -(k : ℤ) := by omega
      rw [hexp, zpow_neg, zpow_natCast]
      push_cast
      field_simp
    rw [heq] at key
    exact key

theorem roundF64_of_nat (q : ℚ) (n : ℕ) (hq : q = (n : ℚ)) (h : n < 2 ^ 53) :
    roundF64 q = q := by
  rw [hq]
  exact roundF64_natCast n h

/-- In `float64` the level sizes of `maxBytesForLevel` are exact on the levels
`pickCompactionLevel` scans. -/
theorem maxBytesForLevel_f64 (L : Nat) (h1 : 1 ≤ L) (h2 : L < NumLevels - 1) :
    maxBytesForLevel roundF64 L = 10485760 * 10 ^ (L - 1) := by
  have m1 : maxBytesForLevel roundF64 1 = 10485760 := by simp [maxBytesForLevel]
  have m2 : maxBytesForLevel roundF64 2 = 104857600 := by
    rw [maxBytesForLevel, if_neg (by decide), m1,
      roundF64_of_nat _ 104857600 (by norm_num) (by norm_num)]
    norm_num
  have m3 : maxBytesForLevel roundF64 3 = 1048576000 := by
    rw [maxBytesForLevel, if_neg (by decide), m2,
      roundF64_of_nat _ 1048576000 (by norm_num) (by norm_num)]
    norm_num
  have m4 : maxBytesForLevel roundF64 4 = 10485760000 := by
    rw [maxBytesForLevel, if_neg (by decide), m3,
      roundF64_of_nat _ 10485760000 (by norm_num) (by norm_num)]
    norm_num
  have m5 : maxBytesForLevel roundF64 5 = 104857600000 := by
    rw [maxBytesForLevel, if_neg (by decide), m4,
      roundF64_of_nat _ 104857600000 (by norm_num) (by norm_num)]
    norm_num
  have hN : NumLevels = 7 := rfl
  have hL : L = 1 ∨ L = 2 ∨ L = 3 ∨ L = 4 ∨ L = 5 := by omega
  rcases hL with h | h | h | h | h <;> subst h
  · rw [m1]; norm_num
  · rw [m2]; norm_num
  · rw [m3]; norm_num
  · rw [m4]; norm_num
  · rw [m5]; norm_num

theorem levelScore_empty_f64 (v : Version) (L : Nat) (h : v.files L = []) :
    levelScore roundF64 v L = 0 := by
  unfold levelScore
  split_ifs with h0
  · rw [h0] at h
    simp [h, roundF64_zero]
  · simp [h, totalFileSize, roundF64_zero]

theorem levelScore_roundingVersion_one :
    levelScore roundF64 roundingVersion 1 = 7205759403792794 / 67108864 := by
  have ht : totalFileSize (roundingVersion.files 1) = 1125899906842624 := by decide
  unfold levelScore
  rw [if_neg (by decide), ht, roundF64_natCast _ (by norm_num),
    maxBytesForLevel_f64 1 (by decide) (by decide),
    roundF64_of_floor _ 26 7205759403792793 (by norm_num) (by norm_num) (by norm_num)
      (by norm_num)]
  norm_num

theorem levelScore_roundingVersion_two :
    levelScore roundF64 roundingVersion 2 = 7205759403792794 / 67108864 := by
  have ht : totalFileSize (roundingVersion.files 2) = 11258999068426241 := by decide
  have hr : roundF64 ((11258999068426241 : ℕ) : ℚ) = 11258999068426240 := by
    rw [roundF64_of_floor _ 53 5629499534213120 (by norm_num) (by norm_num) (by norm_num)
      (by norm_num)]
    norm_num
  unfold levelScore
  rw [if_neg (by decide), ht, hr, maxBytesForLevel_f64 2 (by decide) (by decide),
    roundF64_of_floor _ 26 7205759403792793 (by norm_num) (by norm_num) (by norm_num)
      (by norm_num)]
  norm_num

theorem levelScore_roundingVersion_other (L : Nat) (h1 : L ≠ 1) (h2 : L ≠ 2) :
    levelScore roundF64 roundingVersion L = 0 :=
  levelScore_empty_f64 roundingVersion L (by simp [roundingVersion, New, h1, h2])

theorem scanned_levels : List.range (NumLevels - 1) = [0, 1, 2, 3, 4, 5] := by decide

/-- The scan of `pickCompactionLevel`, one step per level. -/
theorem pickCompactionLevel_steps (fl : ℚ → ℚ) (v : Version) :
    pickCompactionLevel fl v =
      (pickLevelStep fl v (pickLevelStep fl v (pickLevelStep fl v (pickLevelStep fl v
        (pickLevelStep fl v (pickLevelStep fl v (-1, 1) 0) 1) 2) 3) 4) 5).1 := by
  unfold pickCompactionLevel
  rw [scanned_levels]
  rfl

/-- A level that scores 0 leaves the state of the scan as it is, once the best
score is not negative. -/
theorem pickLevelStep_zero (fl : ℚ → ℚ) (v : Version) (st : Int × ℚ) (L : Nat)
    (hs : levelScore fl v L = 0) (hst : 0 ≤ st.2) : pickLevelStep fl v st L = st := by
  unfold pickLevelStep
  rw [hs, if_neg (not_lt.mpr hst)]

theorem roundingVersion_step_one :
    pickLevelStep roundF64 roundingVersion (-1, 1) 1 = (1, 7205759403792794 / 67108864) := by
  unfold pickLevelStep
  rw [levelScore_roundingVersion_one, if_pos (by norm_num)]
  simp

theorem roundingVersion_step_two :
    pickLevelStep roundF64 roundingVersion (1, 7205759403792794 / 67108864) 2 =
      (1, 7205759403792794 / 67108864) := by
  unfold pickLevelStep
  rw [levelScore_roundingVersion_two, if_neg (lt_irrefl _)]

theorem pickCompactionLevel_roundingVersion :
    pickCompactionLevel roundF64 roundingVersion = 1 := by
  rw [pickCompactionLevel_steps,
    pickLevelStep_zero roundF64 roundingVersion (-1, 1) 0
      (levelScore_roundingVersion_other 0 (by decide) (by decide)) (by norm_num),
    roundingVersion_step_one, roundingVersion_step_two,
    pickLevelStep_zero roundF64 roundingVersion _ 3
      (levelScore_roundingVersion_other 3 (by decide) (by decide)) (by norm_num),
    pickLevelStep_zero roundF64 roundingVersion _ 4
      (levelScore_roundingVersion_other 4 (by decide) (by decide)) (by norm_num),
    pickLevelStep_zero roundF64 roundingVersion _ 5
      (levelScore_roundingVersion_other 5 (by decide) (by decide)) (by norm_num)]

/-- Claim C7, refuted as stated: level 1 holds `2^50` bytes and level 2 holds
`10 * 2^50 + 1` bytes. By the claim's formulas level 2 has the strictly higher
score, above 1.0. In `float64` the size of level 2 rounds to `10 * 2^50`, both
computed scores are the same number, and `pickCompactionLevel` returns 1. -/
theorem pickCompactionLevel_rounding_tie :
    pickCompactionLevel roundF64 roundingVersion = 1 ∧
    (1 : ℚ) < (totalFileSize (roundingVersion.files 1) : ℚ) / (10485760 * 10 ^ (1 - 1)) ∧
    (totalFileSize (roundingVersion.files 1) : ℚ) / (10485760 * 10 ^ (1 - 1)) <
      (totalFileSize (roundingVersion.files 2) : ℚ) / (10485760 * 10 ^ (2 - 1)) ∧
    levelScore roundF64 roundingVersion 1 = levelScore roundF64 roundingVersion 2 := by
  have h1 : totalFileSize (roundingVersion.files 1) = 1125899906842624 := by decide
  have h2 : totalFileSize (roundingVersion.files 2) = 11258999068426241 := by decide
  refine ⟨pickCompactionLevel_roundingVersion, ?_, ?_, ?_⟩
  · rw [h1]
    norm_num
  · rw [h1, h2]
    norm_num
  · rw [levelScore_roundingVersion_one, levelScore_roundingVersion_two]

/-- Claim C7, amended. With the scores as the code computes them in `float64`
(`roundF64` after every conversion and division), that is
`score[0] = fl(fl(len(files[0])) / 4)` and
`score[L] = fl(fl(totalFileSize(files[L])) / (10 MiB * 10^(L-1)))` for
`1 ≤ L ≤ NumLevels-2`: `pickCompactionLevel` returns -1 when no level below
`NumLevels-1` has a score above 1.0, and otherwise the level of maximal score
among them, the lowest one among levels of equal maximal score. -/
theorem pickCompactionLevel_argmax (v : Version) :
    levelScore roundF64 v 0 = roundF64 (roundF64 ((v.files 0).length : ℚ) / 4) ∧
    (∀ L, 1 ≤ L → L < NumLevels - 1 → levelScore roundF64 v L =
      roundF64 (roundF64 (totalFileSize (v.files L) : ℚ) / (10485760 * 10 ^ (L - 1)))) ∧
    ((pickCompactionLevel roundF64 v = -1 ∧
        ∀ L, L < NumLevels - 1 → levelScore roundF64 v L ≤ 1) ∨
      (∃ L, L < NumLevels - 1 ∧ pickCompactionLevel roundF64 v = (L : Int) ∧
        1 < levelScore roundF64 v L ∧
        (∀ K, K < NumLevels - 1 → levelScore roundF64 v K ≤ levelScore roundF64 v L) ∧
        (∀ K, K < L → levelScore roundF64 v K < levelScore roundF64 v L))) := by
  refine ⟨?_, ?_, pickCompactionLevel_spec roundF64 v⟩
  · simp [levelScore, L0_CompactionTrigger]
  · intro L h1 h2
    unfold levelScore
    rw [if_neg (by omega), maxBytesForLevel_f64 L h1 h2]

theorem totalFileSize_nil : totalFileSize [] = 0 := rfl

theorem pickCompactionLevel_trivialMoveVersion :
    pickCompactionLevel id trivialMoveVersion = 1 := by
  simp [pickCompactionLevel, NumLevels, List.range_succ, pickLevelStep, levelScore,
    trivialMoveVersion, New, mkFile, totalFileSize, maxBytesForLevel, L0_CompactionTrigger]
  norm_num

theorem pickCompactionLevel_level0Version : pickCompactionLevel id level0Version = 0 := by
  simp [pickCompactionLevel, NumLevels, List.range_succ, pickLevelStep, levelScore,
    level0Version, New, mkFile, totalFileSize, maxBytesForLevel, L0_CompactionTrigger]
  norm_num

/-! ## The merging rewrite of `DoCompactionWork` -/

/-- From `currentKey = nil` the inner loop never skips a record and leaves
`currentKey` nil: it moves a non-empty run of the stream into the builder. -/
theorem mergeInner_none (fileSize : List InternalKey → Nat) :
    ∀ (stream records : List InternalKey) (largest : Option InternalKey),
      ∃ lg taken remaining,
        mergeInner fileSize none records largest stream =
          some (none, records ++ taken, lg, remaining) ∧
        taken ++ remaining = stream ∧
        (stream ≠ [] → taken ≠ []) ∧
        (stream ≠ [] ∨ largest.isSome = true → lg.isSome = true) := by
  intro stream
  induction stream with
  | nil =>
    intro records largest
    refine ⟨largest, [], [], by simp [mergeInner], rfl, fun h => absurd rfl h, ?_⟩
    intro h
    rcases h with h | h
    · exact absurd rfl h
    · exact h
  | cons k rest ih =>
    intro records largest
    simp only [mergeInner]
    split_ifs with hsz
    · exact ⟨some k, [k], rest, rfl, rfl, fun _ => by simp, fun _ => rfl⟩
    · obtain ⟨lg, taken, remaining, h1, h2, _, h4⟩ := ih (records ++ [k]) (some k)
      refine ⟨lg, k :: taken, remaining, ?_, ?_, fun _ => by simp, fun _ => h4 (Or.inr rfl)⟩
      · rw [h1]
        simp
      · simp [h2]

/-- The merging rewrite always completes, and the records of its output files,
taken in order, are the whole input stream: no record is dropped. -/
theorem mergeOuter_copies_stream (fileSize : List InternalKey → Nat) :
    ∀ (fuel : Nat) (stream : List InternalKey) (n : Nat), stream.length ≤ fuel →
      ∃ m outputs, mergeOuter fileSize fuel n none stream = some (m, outputs) ∧
        outputs.flatMap (fun o => o.2) = stream := by
  intro fuel
  induction fuel with
  | zero =>
    intro stream n h
    have : stream = [] := List.length_eq_zero.mp (Nat.le_zero.mp h)
    subst this
    exact ⟨n, [], by simp [mergeOuter], rfl⟩
  | succ fuel ih =>
    intro stream n h
    cases stream with
    | nil => exact ⟨n, [], by simp [mergeOuter], rfl⟩
    | cons k rest =>
      obtain ⟨lg, taken, remaining, h1, h2, h3, h4⟩ := mergeInner_none fileSize (k :: rest) [] none
      have htaken : taken ≠ [] := h3 (List.cons_ne_nil k rest)
      have hlg : lg.isSome = true := h4 (Or.inl (List.cons_ne_nil k rest))
      obtain ⟨key, hkey⟩ := Option.isSome_iff_exists.mp hlg
      have hlen : remaining.length ≤ fuel := by
        have hl := congrArg List.length h2
        simp only [List.length_append, List.length_cons] at hl h
        have : 0 < taken.length := List.length_pos.mpr htaken
        omega
      obtain ⟨m, outputs, h5, h6⟩ := ih remaining ((n + 1) % 2 ^ 64) hlen
      simp only [mergeOuter, h1, hkey, h5, List.nil_append]
      refine ⟨m, _, rfl, ?_⟩
      simp only [List.flatMap_cons, h6]
      exact h2

/-- Claim C6, evaluated on its own example: the stream holds the user key `k`
twice, sequence 20 before sequence 10. The rewrite writes both records to the
output file: `currentKey` starts nil and is assigned only inside the branch
`currentKey != nil`, so the comparison that drops duplicates never runs. -/
theorem mergeRewrite_keeps_duplicate :
    mergeRewrite countingSize 9 dedupStream =
      some (10, [({ allowSeeks := 2 ^ 30, number := 9, fileSize := 2,
                    smallest := { UserKey := [107], Seq := 20, Kind := 1, UserValue := [] },
                    largest := { UserKey := [107], Seq := 10, Kind := 1, UserValue := [] } },
                  dedupStream)]) := by
  decide

/-! ## `InternalKeyComparator` -/

theorem ikc_neg_iff (a b : InternalKey) : InternalKeyComparator a b < 0 ↔ KeyBefore a b := by
  unfold InternalKeyComparator KeyBefore
  simp only
  rcases lt_trichotomy a.UserKey b.UserKey with h | h | h
  · have h1 : UserKeyComparator a.UserKey b.UserKey < 0 := (ukc_neg_iff _ _).mpr h
    rw [if_pos (ne_of_lt h1)]
    exact ⟨fun _ => Or.inl h, fun _ => h1⟩
  · have h1 : UserKeyComparator a.UserKey b.UserKey = 0 := (ukc_zero_iff _ _).mpr h
    have hnl : ¬ a.UserKey < b.UserKey := by
      rw [h]
      exact lt_irrefl _
    rw [if_neg (not_not.mpr h1)]
    by_cases h3 : b.Seq < a.Seq
    · rw [if_pos h3]
      exact ⟨fun _ => Or.inr ⟨h, h3⟩, fun _ => by norm_num⟩
    · rw [if_neg h3]
      constructor
      · intro hlt
        split_ifs at hlt <;> omega
      · rintro (h5 | ⟨_, h5⟩)
        · exact absurd h5 hnl
        · exact absurd h5 h3
  · have h1 : 0 < UserKeyComparator a.UserKey b.UserKey := (ukc_pos_iff _ _).mpr h
    rw [if_pos (ne_of_gt h1)]
    constructor
    · intro h3
      omega
    · rintro (h3 | ⟨h3, _⟩)
      · exact absurd h3 (not_lt_of_lt h)
      · rw [h3] at h
        exact absurd h (lt_irrefl _)

theorem ikc_pos_iff (a b : InternalKey) : 0 < InternalKeyComparator a b ↔ KeyBefore b a := by
  unfold InternalKeyComparator KeyBefore
  simp only
  rcases lt_trichotomy a.UserKey b.UserKey with h | h | h
  · have h1 : UserKeyComparator a.UserKey b.UserKey < 0 := (ukc_neg_iff _ _).mpr h
    rw [if_pos (ne_of_lt h1)]
    constructor
    · intro h3
      omega
    · rintro (h3 | ⟨h3, _⟩)
      · exact absurd h3 (not_lt_of_lt h)
      · rw [h3] at h
        exact absurd h (lt_irrefl _)
  · have h1 : UserKeyComparator a.UserKey b.UserKey = 0 := (ukc_zero_iff _ _).mpr h
    have hnl : ¬ b.UserKey < a.UserKey := by
      rw [h]
      exact lt_irrefl _
    rw [if_neg (not_not.mpr h1)]
    by_cases h3 : a.Seq < b.Seq
    · have h4 : ¬ b.Seq < a.Seq := by omega
      rw [if_neg h4, if_pos h3]
      exact ⟨fun _ => Or.inr ⟨h.symm, h3⟩, fun _ => by norm_num⟩
    · constructor
      · intro hlt
        split_ifs at hlt <;> omega
      · rintro (h5 | ⟨_, h5⟩)
        · exact absurd h5 hnl
        · exact absurd h5 h3
  · have h1 : 0 < UserKeyComparator a.UserKey b.UserKey := (ukc_pos_iff _ _).mpr h
    rw [if_pos (ne_of_gt h1)]
    exact ⟨fun _ => Or.inl h, fun _ => h1⟩

theorem keyBefore_iff (a b : InternalKey) : KeyBefore a b ↔ sortKey a < sortKey b := by
  unfold KeyBefore sortKey
  rw [Prod.Lex.lt_iff]
  simp

theorem ikc_neg_iff_sortKey (a b : InternalKey) :
    InternalKeyComparator a b < 0 ↔ sortKey a < sortKey b := by
  rw [ikc_neg_iff, keyBefore_iff]

theorem ikc_pos_iff_sortKey (a b : InternalKey) :
    0 < InternalKeyComparator a b ↔ sortKey b < sortKey a := by
  rw [ikc_pos_iff, keyBefore_iff]

theorem ikc_nonpos_iff_sortKey (a b : InternalKey) :
    InternalKeyComparator a b ≤ 0 ↔ sortKey a ≤ sortKey b := by
  rw [← not_lt, ikc_pos_iff_sortKey, not_lt]

theorem ikc_nonneg_iff_sortKey (a b : InternalKey) :
    0 ≤ InternalKeyComparator a b ↔ sortKey b ≤ sortKey a := by
  rw [← not_lt, ikc_neg_iff_sortKey, not_lt]

/-! ## `pickCompaction` -/

theorem levelScore_empty (fl : ℚ → ℚ) (hfl : fl 0 = 0) (v : Version) (L : Nat)
    (h : v.files L = []) : levelScore fl v L = 0 := by
  unfold levelScore
  split_ifs with h0
  · rw [h0] at h
    simp [h, hfl]
  · simp [h, totalFileSize_nil, hfl]

/-- A level picked by `pickCompactionLevel` holds at least one file and is below
`NumLevels - 1`. -/
theorem picked_level_nonempty (fl : ℚ → ℚ) (hfl : fl 0 = 0) (v : Version) (L : Nat)
    (hL : pickCompactionLevel fl v = (L : Int)) :
    L < NumLevels - 1 ∧ v.files L ≠ [] := by
  rcases pickCompactionLevel_spec fl v with ⟨h1, _⟩ | ⟨K, hK, h1, h2, _, _⟩
  · rw [hL] at h1
    omega
  · rw [hL] at h1
    have hKL : L = K := by exact_mod_cast h1
    subst hKL
    refine ⟨hK, ?_⟩
    intro hempty
    rw [levelScore_empty fl hfl v L hempty] at h2
    norm_num at h2

theorem firstAfterPointer_none (files : List FileMetaData) :
    firstAfterPointer none files = files[0]? := by
  cases files with
  | nil => rfl
  | cons f rest => simp [firstAfterPointer]

theorem firstAfterPointer_some (p : InternalKey) (files : List FileMetaData) :
    firstAfterPointer (some p) files =
      files.find? (fun f => decide (0 < InternalKeyComparator f.largest p)) := by
  induction files with
  | nil => rfl
  | cons f rest ih =>
    simp only [firstAfterPointer, List.find?_cons]
    by_cases h : 0 < InternalKeyComparator f.largest p
    · simp [h]
    · simp [h, ih]

theorem pickInputs0_deep (v : Version) (L : Nat) (hL : L ≠ 0) (hne : v.files L ≠ []) :
    ∃ f, specInput v L = some f ∧ pickInputs0 v L = some ([f], f.smallest, f.largest) := by
  unfold pickInputs0 specInput
  rw [if_neg hL]
  obtain ⟨g, rest, hfiles⟩ := List.exists_cons_of_ne_nil hne
  cases hp : v.compactPointer L with
  | none =>
    simp only [firstAfterPointer_none, hfiles, List.getElem?_cons_zero]
    exact ⟨g, rfl, rfl⟩
  | some p =>
    simp only [firstAfterPointer_some]
    cases hfind : (v.files L).find? (fun f => decide (0 < InternalKeyComparator f.largest p)) with
    | none =>
      simp only [hfiles, List.getElem?_cons_zero]
      exact ⟨g, rfl, rfl⟩
    | some f => exact ⟨f, rfl, rfl⟩

theorem pickCompaction_of_level (fl : ℚ → ℚ) (v : Version) (L : Nat)
    (hL : pickCompactionLevel fl v = (L : Int)) :
    pickCompaction fl v = (pickCompactionAt v L).map some := by
  unfold pickCompaction
  rw [hL, if_neg (by omega), Int.toNat_ofNat]

/-- Claim C8. When `pickCompactionLevel` returns `L ≥ 0` (the float rounding
keeping zero at zero), `pickCompaction` returns a compaction of level `L` whose
`inputs[0]` is every file of level 0 in stored order when `L = 0`, and otherwise
exactly one file: the first file of `files[L]` whose largest key is strictly
greater than `compactPointer[L]` under `InternalKeyComparator`, or `files[L][0]`
when the pointer is empty or no file qualifies. -/
theorem pickCompaction_inputs0 (fl : ℚ → ℚ) (hfl : fl 0 = 0) (v : Version) (L : Nat)
    (hL : pickCompactionLevel fl v = (L : Int)) :
    ∃ c, pickCompaction fl v = some (some c) ∧ c.level = L ∧
      (L = 0 → c.inputs0 = v.files 0) ∧
      (L ≠ 0 → ∃ f, specInput v L = some f ∧ c.inputs0 = [f]) := by
  obtain ⟨_, hne⟩ := picked_level_nonempty fl hfl v L hL
  rw [pickCompaction_of_level fl v L hL]
  unfold pickCompactionAt
  by_cases h0 : L = 0
  · subst h0
    obtain ⟨g, rest, hfiles⟩ := List.exists_cons_of_ne_nil hne
    simp only [pickInputs0, if_true, hfiles]
    exact ⟨_, rfl, rfl, fun _ => rfl, fun h => absurd rfl h⟩
  · obtain ⟨f, hspec, hpick⟩ := pickInputs0_deep v L h0 hne
    rw [hpick]
    exact ⟨_, rfl, rfl, fun h => absurd h h0, fun _ => ⟨f, hspec, rfl⟩⟩

/-- Witness of claim C8: level 1 of the version holds 20 MiB, the pointer of the
level is empty, and the single input is the first file of the level. -/
theorem pickCompaction_inputs0_witness :
    specInput trivialMoveVersion 1 = some (mkFile 4 20971520 [100] [200]) ∧
    ∃ c, pickCompaction id trivialMoveVersion = some (some c) ∧ c.level = 1 ∧
      (1 = 0 → c.inputs0 = trivialMoveVersion.files 0) ∧
      (1 ≠ 0 → ∃ f, specInput trivialMoveVersion 1 = some f ∧ c.inputs0 = [f]) :=
  ⟨by decide,
    pickCompaction_inputs0 id rfl trivialMoveVersion 1 pickCompactionLevel_trivialMoveVersion⟩

theorem expandRange_foldl (rest : List FileMetaData) :
    ∀ (s0 l0 : InternalKey),
      ((rest.foldl expandRange (s0, l0)).1 = s0 ∨
        ∃ f ∈ rest, f.smallest = (rest.foldl expandRange (s0, l0)).1) ∧
      sortKey (rest.foldl expandRange (s0, l0)).1 ≤ sortKey s0 ∧
      (∀ f ∈ rest, sortKey (rest.foldl expandRange (s0, l0)).1 ≤ sortKey f.smallest) ∧
      ((rest.foldl expandRange (s0, l0)).2 = l0 ∨
        ∃ f ∈ rest, f.largest = (rest.foldl expandRange (s0, l0)).2) ∧
      sortKey l0 ≤ sortKey (rest.foldl expandRange (s0, l0)).2 ∧
      (∀ f ∈ rest, sortKey f.largest ≤ sortKey (rest.foldl expandRange (s0, l0)).2) := by
  induction rest with
  | nil =>
    intro s0 l0
    simp
  | cons g tl ih =>
    intro s0 l0
    simp only [List.foldl_cons]
    obtain ⟨h1, h2, h3, h4, h5, h6⟩ := ih (expandRange (s0, l0) g).1 (expandRange (s0, l0) g).2
    have hs1 : (expandRange (s0, l0) g).1 = s0 ∨ (expandRange (s0, l0) g).1 = g.smallest := by
      unfold expandRange
      simp only
      split_ifs <;> simp
    have hs2 : sortKey (expandRange (s0, l0) g).1 ≤ sortKey s0 ∧
        sortKey (expandRange (s0, l0) g).1 ≤ sortKey g.smallest := by
      unfold expandRange
      simp only
      split_ifs with hc
      · exact ⟨le_of_lt ((ikc_neg_iff_sortKey _ _).mp hc), le_refl _⟩
      · exact ⟨le_refl _, not_lt.mp (fun h => hc ((ikc_neg_iff_sortKey _ _).mpr h))⟩
    have hl1 : (expandRange (s0, l0) g).2 = l0 ∨ (expandRange (s0, l0) g).2 = g.largest := by
      unfold expandRange
      simp only
      split_ifs <;> simp
    have hl2 : sortKey l0 ≤ sortKey (expandRange (s0, l0) g).2 ∧
        sortKey g.largest ≤ sortKey (expandRange (s0, l0) g).2 := by
      unfold expandRange
      simp only
      split_ifs with hc
      · exact ⟨le_of_lt ((ikc_pos_iff_sortKey _ _).mp hc), le_refl _⟩
      · exact ⟨le_refl _, not_lt.mp (fun h => hc ((ikc_pos_iff_sortKey _ _).mpr h))⟩
    refine ⟨?_, le_trans h2 hs2.1, ?_, ?_, le_trans hl2.1 h5, ?_⟩
    · rcases h1 with h | ⟨f, hf, h⟩
      · rcases hs1 with h7 | h7
        · left
          rw [h, h7]
        · right
          exact ⟨g, List.mem_cons_self g tl, by rw [h, h7]⟩
      · right
        exact ⟨f, List.mem_cons_of_mem g hf, h⟩
    · intro f hf
      rcases List.mem_cons.mp hf with h | h
      · rw [h]
        exact le_trans h2 hs2.2
      · exact h3 f h
    · rcases h4 with h | ⟨f, hf, h⟩
      · rcases hl1 with h7 | h7
        · left
          rw [h, h7]
        · right
          exact ⟨g, List.mem_cons_self g tl, by rw [h, h7]⟩
      · right
        exact ⟨f, List.mem_cons_of_mem g hf, h⟩
    · intro f hf
      rcases List.mem_cons.mp hf with h | h
      · rw [h]
        exact le_trans hl2.2 h5
      · exact h6 f h

/-- The range `pickCompaction` computes is bounded by a least `smallest` and a
greatest `largest` of `inputs[0]`, and both are keys of input files. -/
theorem pickInputs0_range (v : Version) (L : Nat) (inputs0 : List FileMetaData)
    (sm lg : InternalKey) (h : pickInputs0 v L = some (inputs0, sm, lg)) :
    (∃ f ∈ inputs0, f.smallest = sm) ∧ (∀ f ∈ inputs0, sortKey sm ≤ sortKey f.smallest) ∧
    (∃ f ∈ inputs0, f.largest = lg) ∧ (∀ f ∈ inputs0, sortKey f.largest ≤ sortKey lg) := by
  have hsingle : ∀ f : FileMetaData, some ([f], f.smallest, f.largest) = some (inputs0, sm, lg) →
      (∃ f ∈ inputs0, f.smallest = sm) ∧ (∀ f ∈ inputs0, sortKey sm ≤ sortKey f.smallest) ∧
      (∃ f ∈ inputs0, f.largest = lg) ∧ (∀ f ∈ inputs0, sortKey f.largest ≤ sortKey lg) := by
    intro f hf
    simp only [Option.some.injEq, Prod.mk.injEq] at hf
    obtain ⟨rfl, rfl, rfl⟩ := hf
    simp
  unfold pickInputs0 at h
  split_ifs at h with h0
  · cases hfiles : v.files L with
    | nil => simp [hfiles] at h
    | cons g rest =>
      simp only [hfiles, Option.some.injEq, Prod.mk.injEq] at h
      obtain ⟨rfl, hrange⟩ := h
      obtain ⟨h1, h2, h3, h4, h5, h6⟩ := expandRange_foldl rest g.smallest g.largest
      rw [hrange] at h1 h2 h3 h4 h5 h6
      simp only at h1 h2 h3 h4 h5 h6
      refine ⟨?_, ?_, ?_, ?_⟩
      · rcases h1 with h | ⟨f, hf, h⟩
        · exact ⟨g, List.mem_cons_self g rest, h.symm⟩
        · exact ⟨f, List.mem_cons_of_mem g hf, h⟩
      · intro f hf
        rcases List.mem_cons.mp hf with h | h
        · rw [h]
          exact h2
        · exact h3 f h
      · rcases h4 with h | ⟨f, hf, h⟩
        · exact ⟨g, List.mem_cons_self g rest, h.symm⟩
        · exact ⟨f, List.mem_cons_of_mem g hf, h⟩
      · intro f hf
        rcases List.mem_cons.mp hf with h | h
        · rw [h]
          exact h5
        · exact h6 f h
  · cases hfirst : firstAfterPointer (v.compactPointer L) (v.files L) with
    | some f =>
      rw [hfirst] at h
      exact hsingle f h
    | none =>
      rw [hfirst] at h
      cases hfiles : v.files L with
      | nil => simp [hfiles] at h
      | cons g rest =>
        rw [hfiles] at h
        exact hsingle g h

theorem pickCompaction_some (fl : ℚ → ℚ) (v : Version) (c : Compaction)
    (hp : pickCompaction fl v = some (some c)) :
    pickCompactionLevel fl v = (c.level : Int) ∧
    ∃ sm lg, pickInputs0 v c.level = some (c.inputs0, sm, lg) ∧
      c.inputs1 = pickInputs1 (v.files (c.level + 1)) sm lg := by
  unfold pickCompaction at hp
  split_ifs at hp with hneg
  · simp at hp
  · have hnat : ((pickCompactionLevel fl v).toNat : Int) = pickCompactionLevel fl v :=
      Int.toNat_of_nonneg (not_lt.mp hneg)
    generalize (pickCompactionLevel fl v).toNat = n at hp hnat
    unfold pickCompactionAt at hp
    cases hpick : pickInputs0 v n with
    | none => simp [hpick] at hp
    | some r =>
      obtain ⟨i0, sm, lg⟩ := r
      simp only [hpick, Option.map_some', Option.some.injEq] at hp
      subst hp
      exact ⟨hnat.symm, sm, lg, hpick, rfl⟩

/-- Claim C9. When `pickCompaction` returns a compaction `c` (its level being the
one `pickCompactionLevel` returned), let `s` be a minimum of `f.smallest` and `l`
a maximum of `f.largest` over the files of `c.inputs[0]` under
`InternalKeyComparator`. Then `c.inputs[1]` is the subsequence, in level order,
of the files `f` of the next level for which neither `f.largest < s` nor
`f.smallest > l` holds under `InternalKeyComparator`. -/
theorem pickCompaction_inputs1 (fl : ℚ → ℚ) (v : Version) (c : Compaction)
    (hp : pickCompaction fl v = some (some c)) (s l : InternalKey)
    (hs : IsLeastSmallest c.inputs0 s) (hl : IsGreatestLargest c.inputs0 l) :
    pickCompactionLevel fl v = (c.level : Int) ∧
    c.inputs1 = (v.files (c.level + 1)).filter (fun f =>
      decide (¬ InternalKeyComparator f.largest s < 0 ∧
        ¬ 0 < InternalKeyComparator f.smallest l)) := by
  obtain ⟨hlevel, sm, lg, hpick, hin1⟩ := pickCompaction_some fl v c hp
  obtain ⟨⟨f1, hf1, hf1s⟩, hsm, ⟨f2, hf2, hf2l⟩, hlg⟩ :=
    pickInputs0_range v c.level c.inputs0 sm lg hpick
  obtain ⟨⟨g1, hg1, hg1s⟩, hsle⟩ := hs
  obtain ⟨⟨g2, hg2, hg2l⟩, hlge⟩ := hl
  have hseq : sortKey s = sortKey sm := by
    apply le_antisymm
    · rw [← hf1s]
      exact (ikc_nonpos_iff_sortKey _ _).mp (hsle f1 hf1)
    · rw [← hg1s]
      exact hsm g1 hg1
  have hleq : sortKey l = sortKey lg := by
    apply le_antisymm
    · rw [← hg2l]
      exact hlg g2 hg2
    · rw [← hf2l]
      exact (ikc_nonneg_iff_sortKey _ _).mp (hlge f2 hf2)
  refine ⟨hlevel, ?_⟩
  rw [hin1]
  unfold pickInputs1
  apply List.filter_congr
  intro f _
  have e1 : InternalKeyComparator f.largest sm < 0 ↔ InternalKeyComparator f.largest s < 0 := by
    rw [ikc_neg_iff_sortKey, ikc_neg_iff_sortKey, hseq]
  have e2 : 0 < InternalKeyComparator f.smallest lg ↔ 0 < InternalKeyComparator f.smallest l := by
    rw [ikc_pos_iff_sortKey, ikc_pos_iff_sortKey, hleq]
  by_cases h1 : InternalKeyComparator f.largest s < 0 <;>
    by_cases h2 : 0 < InternalKeyComparator f.smallest l <;>
    simp [e1, e2, h1, h2]

theorem pickCompaction_level0Version :
    pickCompaction id level0Version =
      some (some { level := 0, inputs0 := level0Version.files 0,
                   inputs1 := [mkFile 1 10 [1] [3]] }) := by
  rw [pickCompaction_of_level id level0Version 0 pickCompactionLevel_level0Version]
  decide

/-- Witness of claim C9: five level-0 files spanning the keys `[2]` to `[12]`; of
the two level-1 files only `[1..3]` meets that range. -/
theorem pickCompaction_inputs1_witness :
    pickCompactionLevel id level0Version = 0 ∧
    [mkFile 1 10 [1] [3]] = (level0Version.files 1).filter (fun f =>
      decide (¬ InternalKeyComparator f.largest (mkKey [2] 2) < 0 ∧
        ¬ 0 < InternalKeyComparator f.smallest (mkKey [12] 1))) :=
  pickCompaction_inputs1 id level0Version
    { level := 0, inputs0 := level0Version.files 0, inputs1 := [mkFile 1 10 [1] [3]] }
    pickCompaction_level0Version (mkKey [2] 2) (mkKey [12] 1)
    (by unfold IsLeastSmallest; decide) (by unfold IsGreatestLargest; decide)

/-! ## Trivial move -/

theorem deleteFromLevel_no_number (number : Nat) (files : List FileMetaData)
    (hnd : (files.map (fun g => g.number)).Nodup) :
    ∀ g ∈ deleteFromLevel number files, g.number ≠ number := by
  induction files with
  | nil =>
    intro g hg
    simp [deleteFromLevel] at hg
  | cons f rest ih =>
    rw [List.map_cons, List.nodup_cons] at hnd
    intro g hg
    simp only [deleteFromLevel] at hg
    split_ifs at hg with hf
    · intro hgn
      apply hnd.1
      rw [hf, ← hgn]
      exact List.mem_map_of_mem _ hg
    · rcases List.mem_cons.mp hg with h | h
      · rw [h]
        exact hf
      · exact ih hnd.2 g h

theorem mem_insertIntoLevel (meta : FileMetaData) (files : List FileMetaData) :
    meta ∈ insertIntoLevel meta files := by
  rw [insertIntoLevel_eq]
  simp

theorem addFile_files_other (v : Version) (level l : Nat) (meta : FileMetaData)
    (h : l ≠ level) : (addFile v level meta).files l = v.files l := by
  unfold addFile
  split_ifs <;> simp [Function.update, h]

theorem deleteFile_files_other (v : Version) (level l : Nat) (meta : FileMetaData)
    (h : l ≠ level) : (deleteFile v level meta).files l = v.files l := by
  simp [deleteFile, Function.update, h]

theorem addFile_nextFileNumber (v : Version) (level : Nat) (meta : FileMetaData) :
    (addFile v level meta).nextFileNumber = v.nextFileNumber := by
  unfold addFile
  split_ifs <;> rfl

theorem isTrivialMove_iff (c : Compaction) :
    c.isTrivialMove = true ↔ c.inputs0.length = 1 ∧ c.inputs1.length = 0 := by
  simp [Compaction.isTrivialMove]

/-- A trivial move whose level has pairwise distinct file numbers: the file
leaves level `L`, arrives on level `L+1`, and nothing else changes. -/
theorem trivial_move_of_distinct_numbers (fl : ℚ → ℚ) (iter : Compaction → List InternalKey)
    (fileSize : List InternalKey → Nat) (v : Version) (c : Compaction) (f : FileMetaData)
    (hp : pickCompaction fl v = some (some c)) (ht : c.isTrivialMove = true)
    (hf : c.inputs0 = [f])
    (hnd : ((v.files c.level).map (fun g => g.number)).Nodup) :
    (∀ d : Compaction, d.isTrivialMove = true ↔ d.inputs0.length = 1 ∧ d.inputs1.length = 0) ∧
    ∃ w, DoCompactionWork fl iter fileSize v = some (true, w) ∧
      (∀ g ∈ w.files c.level, g.number ≠ f.number) ∧
      f ∈ w.files (c.level + 1) ∧
      w.nextFileNumber = v.nextFileNumber ∧
      (∀ l, l ≠ c.level → l ≠ c.level + 1 → w.files l = v.files l) := by
  refine ⟨isTrivialMove_iff, addFile (deleteFile v c.level f) (c.level + 1) f, ?_, ?_, ?_, ?_, ?_⟩
  · unfold DoCompactionWork
    rw [hp]
    simp only [compactionWork, ht, if_true, hf, Option.map_some']
  · rw [addFile_files_other _ _ _ _ (by omega), deleteFile_files]
    exact deleteFromLevel_no_number f.number _ hnd
  · rw [addFile_files_deep _ _ _ (by omega)]
    exact mem_insertIntoLevel f _
  · rw [addFile_nextFileNumber]
    rfl
  · intro l h1 h2
    rw [addFile_files_other _ _ _ _ h2, deleteFile_files_other _ _ _ _ h1]

theorem pickCompaction_trivialMoveVersion :
    pickCompaction id trivialMoveVersion =
      some (some { level := 1, inputs0 := [mkFile 4 20971520 [100] [200]], inputs1 := [] }) := by
  rw [pickCompaction_of_level id trivialMoveVersion 1 pickCompactionLevel_trivialMoveVersion]
  decide

/-! ## `WriteLevel0Table` -/

theorem flushLevelLoop_spec (v : Version) (lo hi : List Nat) :
    ∀ (fuel level : Nat), level + fuel = MaxMemCompactLevel →
      level ≤ flushLevelLoop v lo hi fuel level ∧
      flushLevelLoop v lo hi fuel level ≤ MaxMemCompactLevel ∧
      (∀ L, level ≤ L → L < flushLevelLoop v lo hi fuel level →
        overlapInLevel v (L + 1) lo hi = false) ∧
      (flushLevelLoop v lo hi fuel level = MaxMemCompactLevel ∨
        overlapInLevel v (flushLevelLoop v lo hi fuel level + 1) lo hi = true) := by
  intro fuel
  induction fuel with
  | zero =>
    intro level h
    simp only [flushLevelLoop]
    exact ⟨le_refl _, by omega, fun L h1 h2 => by omega, Or.inl (by omega)⟩
  | succ fuel ih =>
    intro level h
    simp only [flushLevelLoop]
    rw [if_pos (by omega)]
    by_cases hov : overlapInLevel v (level + 1) lo hi = true
    · rw [if_pos hov]
      exact ⟨le_refl _, by omega, fun L h1 h2 => by omega, Or.inr hov⟩
    · rw [if_neg hov]
      obtain ⟨h1, h2, h3, h4⟩ := ih (level + 1) (by omega)
      refine ⟨by omega, h2, ?_, h4⟩
      intro L hL1 hL2
      rcases Nat.lt_or_eq_of_le hL1 with hlt | heq
      · exact h3 L (by omega) hL2
      · rw [← heq]
        simpa using hov

theorem flushLevel_spec (v : Version) (lo hi : List Nat) :
    flushLevel v lo hi ≤ MaxMemCompactLevel ∧
    (overlapInLevel v 0 lo hi = true → flushLevel v lo hi = 0) ∧
    (overlapInLevel v 0 lo hi = false →
      (∀ L, L < flushLevel v lo hi → overlapInLevel v (L + 1) lo hi = false) ∧
      (flushLevel v lo hi = MaxMemCompactLevel ∨
        overlapInLevel v (flushLevel v lo hi + 1) lo hi = true)) := by
  unfold flushLevel
  by_cases h0 : overlapInLevel v 0 lo hi = true
  · rw [if_pos h0]
    exact ⟨Nat.zero_le _, fun _ => rfl, fun h => by rw [h0] at h; cases h⟩
  · rw [if_neg h0]
    obtain ⟨_, h2, h3, h4⟩ := flushLevelLoop_spec v lo hi MaxMemCompactLevel 0 (by omega)
    exact ⟨h2, fun h => absurd h h0, fun _ => ⟨fun L hL => h3 L (Nat.zero_le L) hL, h4⟩⟩

theorem overlapInLevel_of_empty (v : Version) (level : Nat) (lo hi : List Nat)
    (h : v.files level = []) : overlapInLevel v level lo hi = false := by
  unfold overlapInLevel
  simp [h]

theorem insertIntoLevel_perm (meta : FileMetaData) (files : List FileMetaData) :
    (insertIntoLevel meta files).Perm (meta :: files) := by
  rw [insertIntoLevel_eq]
  have h := List.take_append_drop (findFile files meta.smallest.UserKey) files
  calc (files.take (findFile files meta.smallest.UserKey) ++
          meta :: files.drop (findFile files meta.smallest.UserKey)).Perm
        (meta :: (files.take (findFile files meta.smallest.UserKey) ++
          files.drop (findFile files meta.smallest.UserKey))) := List.perm_middle
    _ = meta :: files := by rw [h]

theorem addFile_files_same (v : Version) (level : Nat) (meta : FileMetaData) :
    (addFile v level meta).files level =
      if level = 0 then v.files 0 ++ [meta] else insertIntoLevel meta (v.files level) := by
  unfold addFile
  split_ifs with h
  · subst h
    simp
  · simp

theorem addFile_files_perm (v : Version) (level : Nat) (meta : FileMetaData) :
    ((addFile v level meta).files level).Perm (meta :: v.files level) := by
  rw [addFile_files_same]
  split_ifs with h
  · subst h
    exact List.perm_append_singleton meta (v.files 0)
  · exact insertIntoLevel_perm meta _

/-- The level `WriteLevel0Table` selects, in terms of the answers of
`overlapInLevel`: for a non-empty memtable whose first and last user keys are
`lo` and `hi` the method returns and installs the new file at a level `D` with
`D ≤ MaxMemCompactLevel`; `D = 0` when `overlapInLevel(0, lo, hi)`; otherwise
`overlapInLevel(L+1, lo, hi)` was false for every `L < D`, and
`D = MaxMemCompactLevel` or `overlapInLevel(D+1, lo, hi)`. On a version without
files `D = MaxMemCompactLevel`. Level `D` gains exactly the new file, whose
number is the old `nextFileNumber`; every other level is unchanged. -/
theorem WriteLevel0Table_level (fileSize : List InternalKey → Nat) (v : Version)
    (imm : List InternalKey) (first last : InternalKey)
    (hfirst : imm.head? = some first) (hlast : imm.getLast? = some last) :
    ∃ D w meta, WriteLevel0Table fileSize v imm = some w ∧
      D ≤ MaxMemCompactLevel ∧
      (overlapInLevel v 0 first.UserKey last.UserKey = true → D = 0) ∧
      (overlapInLevel v 0 first.UserKey last.UserKey = false →
        (∀ L, L < D → overlapInLevel v (L + 1) first.UserKey last.UserKey = false) ∧
        (D = MaxMemCompactLevel ∨
          overlapInLevel v (D + 1) first.UserKey last.UserKey = true)) ∧
      ((∀ l, v.files l = []) → D = MaxMemCompactLevel) ∧
      meta.number = v.nextFileNumber ∧
      meta.smallest.UserKey = first.UserKey ∧ meta.largest.UserKey = last.UserKey ∧
      (w.files D).Perm (meta :: v.files D) ∧
      (∀ l, l ≠ D → w.files l = v.files l) := by
  have hprep : (flushPrepare fileSize v imm).2.2 =
      some ({ first with UserValue := [] }, { last with UserValue := [] },
        fileSize imm % 2 ^ 64) := by
    simp [flushPrepare, hfirst, hlast]
  obtain ⟨h1, h2, h3⟩ := flushLevel_spec v first.UserKey last.UserKey
  refine ⟨flushLevel v first.UserKey last.UserKey,
    addFile (flushPrepare fileSize v imm).1 (flushLevel v first.UserKey last.UserKey)
      (flushMeta v.nextFileNumber
        ({ first with UserValue := [] }, { last with UserValue := [] }, fileSize imm % 2 ^ 64)),
    flushMeta v.nextFileNumber
      ({ first with UserValue := [] }, { last with UserValue := [] }, fileSize imm % 2 ^ 64),
    ?_, h1, h2, h3, ?_, rfl, rfl, rfl, ?_, ?_⟩
  · unfold WriteLevel0Table
    rw [hprep]
    rfl
  · intro hempty
    by_cases h0 : overlapInLevel v 0 first.UserKey last.UserKey = true
    · rw [overlapInLevel_of_empty v 0 _ _ (hempty 0)] at h0
      cases h0
    · rcases (h3 (by simpa using h0)).2 with h | h
      · exact h
      · rw [overlapInLevel_of_empty v _ _ _ (hempty _)] at h
        cases h
  · exact addFile_files_perm _ _ _
  · intro l hl
    exact addFile_files_other _ _ _ _ hl

/-- The push-down scenario: the memtable `a → 1, z → 2` flushed into a version
without files lands at level 2 with file number 1. -/
theorem WriteLevel0Table_level_pushDown :
    flushLevel New [97] [122] = 2 ∧
    ∃ D w meta, WriteLevel0Table countingSize New pushDownMemtable = some w ∧
      D ≤ MaxMemCompactLevel ∧
      (overlapInLevel New 0 [97] [122] = true → D = 0) ∧
      (overlapInLevel New 0 [97] [122] = false →
        (∀ L, L < D → overlapInLevel New (L + 1) [97] [122] = false) ∧
        (D = MaxMemCompactLevel ∨ overlapInLevel New (D + 1) [97] [122] = true)) ∧
      ((∀ l, New.files l = []) → D = MaxMemCompactLevel) ∧
      meta.number = New.nextFileNumber ∧
      meta.smallest.UserKey = [97] ∧ meta.largest.UserKey = [122] ∧
      (w.files D).Perm (meta :: New.files D) ∧
      (∀ l, l ≠ D → w.files l = New.files l) :=
  ⟨by decide, WriteLevel0Table_level countingSize New pushDownMemtable
    { UserKey := [97], Seq := 1, Kind := 1, UserValue := [49] }
    { UserKey := [122], Seq := 2, Kind := 1, UserValue := [50] } rfl rfl⟩

/-- Claim C12, evaluated on a fresh version and a memtable without items: the file
number is allocated before the iterator is consulted (`nextFileNumber` goes
from 1 to 2), the keys of `meta` stay nil, and the method stops in a nil
dereference at `meta.smallest.UserKey` instead of returning. -/
theorem WriteLevel0Table_empty_memtable :
    New.nextFileNumber = 1 ∧
    (flushPrepare countingSize New []).1.nextFileNumber = 2 ∧
    (flushPrepare countingSize New []).2.2 = none ∧
    WriteLevel0Table countingSize New [] = none :=
  ⟨rfl, rfl, rfl, rfl⟩

/-- Claim C18, evaluated at the boundary: level 2 holds `[2..4]`, the other levels
are empty, and the memtable spans `[1..2]`. The walk passes level 1 and asks
`overlapInLevel(2, [1], [2])`, which answers false although the key `[2]` is
shared (the strict comparison of claim C3); the file is installed at level 2 in
front of `[2..4]`, and the level has two files with the user key `[2]`. -/
theorem WriteLevel0Table_boundary_overlap :
    LevelSorted (boundaryLevel2Version.files 2) ∧
    overlapInLevel boundaryLevel2Version 2 [1] [2] = false ∧
    (WriteLevel0Table countingSize boundaryLevel2Version boundaryMemtable).map
        (fun w => w.files 2) =
      some [{ allowSeeks := 2 ^ 30, number := 2, fileSize := 2,
              smallest := { UserKey := [1], Seq := 5, Kind := 1, UserValue := [] },
              largest := { UserKey := [2], Seq := 6, Kind := 1, UserValue := [] } },
            mkFile 1 100 [2] [4]] ∧
    ¬ LevelSorted
      [{ allowSeeks := 2 ^ 30, number := 2, fileSize := 2,
         smallest := { UserKey := [1], Seq := 5, Kind := 1, UserValue := [] },
         largest := { UserKey := [2], Seq := 6, Kind := 1, UserValue := [] } },
       mkFile 1 100 [2] [4]] := by
  refine ⟨?_, by decide, by decide, ?_⟩
  · unfold LevelSorted WellFormedRange RangesOverlap
    decide
  · unfold LevelSorted WellFormedRange RangesOverlap
    decide

/-! ## Short reads -/

theorem truncatedDescriptor_prefix :
    descriptorVersion.EncodeTo.take 20 = truncatedDescriptor ∧
    truncatedDescriptor.length < descriptorVersion.EncodeTo.length := by
  constructor
  · rfl
  · rw [show descriptorVersion.EncodeTo.length = 225 from rfl]
    decide

/-- Claim C13, evaluated on truncated descriptors. On the empty stream
`FileMetaData.DecodeFrom` fills a zero record and `Version.DecodeFrom` returns
with the version untouched; `Load` reports success (nil error). On the first 20
bytes of a valid descriptor (cut after the file count of level 0) `Load` again
reports success, with two zero-valued files on level 0. -/
theorem decode_short_read_succeeds :
    (FileMetaData.DecodeFrom []).1 =
      { allowSeeks := 0, number := 0, fileSize := 0,
        smallest := InternalKey.zero, largest := InternalKey.zero } ∧
    (Version.DecodeFrom New []).map
        (fun r => (r.1.nextFileNumber, r.1.seq, (List.range NumLevels).map r.1.files)) =
      some (1, 0, [[], [], [], [], [], [], []]) ∧
    (Load (Except.ok [])).map (fun r => (r.1.map (fun w => w.nextFileNumber), r.2)) =
      some (some 1, none) ∧
    (Load (Except.ok truncatedDescriptor)).map
        (fun r => (r.1.map (fun w => (w.nextFileNumber, w.seq, w.files 0)), r.2)) =
      some (some (8, 41,
        [{ allowSeeks := 0, number := 0, fileSize := 0,
           smallest := InternalKey.zero, largest := InternalKey.zero },
         { allowSeeks := 0, number := 0, fileSize := 0,
           smallest := InternalKey.zero, largest := InternalKey.zero }]), none) := by
  refine ⟨by decide, by decide, by decide, by decide⟩

/-! ## `findTable` -/

/-- Claim C14, evaluated on a failing open: `findTable(7)` on an empty cache
returns the error, but the cache now has an entry for 7 (the nil handle), and a
later `findTable(7)` returns that nil handle with a nil error without opening
the file again, even when the open would now succeed. -/
theorem findTable_caches_failed_open :
    emptyCache 7 = none ∧
    (findTable failingOpen emptyCache 7).1 = (none, some (DBError.ErrOther 2)) ∧
    (findTable failingOpen emptyCache 7).2 7 = some none ∧
    (findTable workingOpen (findTable failingOpen emptyCache 7).2 7).1 = (none, none) ∧
    (findTable workingOpen emptyCache 7).1 = (some 7, none) ∧
    (findTable workingOpen emptyCache 7).2 7 = some (some 7) := by
  decide

/-! ## `DoCompactionWork` and the compaction pointer -/

theorem addFile_compactPointer (v : Version) (level : Nat) (meta : FileMetaData) :
    (addFile v level meta).compactPointer = v.compactPointer := by
  unfold addFile
  split_ifs <;> rfl

theorem foldl_deleteFile_compactPointer (level : Nat) (fs : List FileMetaData) :
    ∀ v : Version,
      (fs.foldl (fun w f => deleteFile w level f) v).compactPointer = v.compactPointer := by
  induction fs with
  | nil => intro v; rfl
  | cons f rest ih =>
    intro v
    rw [List.foldl_cons, ih]
    rfl

theorem foldl_addFile_compactPointer (level : Nat) (fs : List FileMetaData) :
    ∀ v : Version,
      (fs.foldl (fun w f => addFile w level f) v).compactPointer = v.compactPointer := by
  induction fs with
  | nil => intro v; rfl
  | cons f rest ih =>
    intro v
    rw [List.foldl_cons, ih, addFile_compactPointer]

/-- No path of `DoCompactionWork` writes `compactPointer`. -/
theorem DoCompactionWork_compactPointer (fl : ℚ → ℚ) (iter : Compaction → List InternalKey)
    (fileSize : List InternalKey → Nat) (v w : Version) (b : Bool)
    (h : DoCompactionWork fl iter fileSize v = some (b, w)) :
    w.compactPointer = v.compactPointer := by
  unfold DoCompactionWork at h
  cases hp : pickCompaction fl v with
  | none => simp [hp] at h
  | some oc =>
    cases oc with
    | none =>
      simp only [hp, Option.some.injEq, Prod.mk.injEq] at h
      rw [← h.2]
    | some c =>
      simp only [hp, Option.map_eq_some', Prod.mk.injEq] at h
      obtain ⟨w1, hw, _, rfl⟩ := h
      unfold compactionWork at hw
      split_ifs at hw with ht
      · cases hin : c.inputs0 with
        | nil => simp [hin] at hw
        | cons f rest =>
          simp only [hin, Option.some.injEq] at hw
          rw [← hw, addFile_compactPointer]
          rfl
      · cases hm : mergeRewrite fileSize v.nextFileNumber (iter c) with
        | none => simp [hm] at hw
        | some r =>
          simp only [hm, Option.some.injEq] at hw
          rw [← hw, foldl_addFile_compactPointer, foldl_deleteFile_compactPointer,
            foldl_deleteFile_compactPointer]

/-- Claim C15, evaluated on a merging rewrite: five level-0 files and one
overlapping level-1 file are rewritten into one output file with the keys
`[5]` to `[9]`, installed on level 1; `DoCompactionWork` returns true and
`compactPointer[0]` is still nil, not the output's largest key. -/
theorem DoCompactionWork_pointer_not_updated :
    (DoCompactionWork id (fun _ => twoKeyStream) countingSize level0Version).map
        (fun r => (r.1, r.2.nextFileNumber, r.2.files 0, r.2.files 1, r.2.compactPointer 0)) =
      some (true, 10, [],
        [{ allowSeeks := 2 ^ 30, number := 9, fileSize := 2,
           smallest := { UserKey := [5], Seq := 3, Kind := 1, UserValue := [] },
           largest := { UserKey := [9], Seq := 4, Kind := 1, UserValue := [] } },
         mkFile 2 10 [20] [30]],
        none) := by
  unfold DoCompactionWork
  rw [pickCompaction_level0Version]
  decide

/-! ## Overlap monotonicity and the level candidate of `Get` -/

/-- The index form of the binary search contract. -/
theorem findFile_index_spec (files : List FileMetaData) (key : List Nat)
    (hs : SortedByLargest files) :
    findFile files key ≤ files.length ∧
    (∀ j f, j < findFile files key → files[j]? = some f → f.largest.UserKey < key) ∧
    (∀ j f, findFile files key ≤ j → files[j]? = some f → key ≤ f.largest.UserKey) := by
  unfold findFile
  exact findFileLoop_spec files key hs files.length 0 files.length (by omega) (by omega)
    (le_refl _) (by intro j f hj; omega)
    (by
      intro j f hj hf
      have := (List.getElem?_eq_some.mp hf).1
      omega)

theorem findFile_mono (files : List FileMetaData) (lo2 lo : List Nat)
    (hs : SortedByLargest files) (h : lo2 ≤ lo) : findFile files lo2 ≤ findFile files lo := by
  obtain ⟨h1, h2, _⟩ := findFile_index_spec files lo2 hs
  obtain ⟨_, _, h6⟩ := findFile_index_spec files lo hs
  by_contra hc
  have hlt : findFile files lo < findFile files lo2 := not_le.mp hc
  have hin : findFile files lo < files.length := by omega
  have hget := List.getElem?_eq_getElem hin
  have ha := h2 _ _ hlt hget
  have hb := h6 _ _ (le_refl _) hget
  exact absurd (lt_of_lt_of_le ha h) (not_lt.mpr hb)

theorem overlapInLevel_zero_iff (v : Version) (lo hi : List Nat) :
    overlapInLevel v 0 lo hi = true ↔
      ∃ f ∈ v.files 0, lo ≤ f.largest.UserKey ∧ f.smallest.UserKey ≤ hi := by
  unfold overlapInLevel
  simp only [if_true]
  split_ifs with hn
  · have : v.files 0 = [] := List.length_eq_zero.mp hn
    simp [this]
  · simp [ukc_pos_iff]

/-- Claim C17. On a version whose levels `≥ 1` are sorted with non-overlapping
user-key ranges, for every level and all user keys `lo2 ≤ lo` and `hi ≤ hi2`:
when `overlapInLevel(level, lo, hi)` is true, so is
`overlapInLevel(level, lo2, hi2)`. -/
theorem overlapInLevel_widen (v : Version) (level : Nat) (lo hi lo2 hi2 : List Nat)
    (hsorted : ∀ L, 1 ≤ L → LevelSorted (v.files L))
    (hlo : lo2 ≤ lo) (hhi : hi ≤ hi2)
    (h : overlapInLevel v level lo hi = true) :
    overlapInLevel v level lo2 hi2 = true := by
  rcases Nat.eq_zero_or_pos level with h0 | hpos
  · subst h0
    rw [overlapInLevel_zero_iff] at h ⊢
    obtain ⟨f, hf, h1, h2⟩ := h
    exact ⟨f, hf, le_trans hlo h1, le_trans h2 hhi⟩
  · rw [overlapInLevel_deep_iff v level _ _ hpos] at h ⊢
    obtain ⟨f, hf, hfs⟩ := h
    have hda := (levelSorted_iff _).mp (hsorted level hpos)
    have hsl := disjointAscending_sortedByLargest _ hda
    have hmono := findFile_mono (v.files level) lo2 lo hsl hlo
    obtain ⟨hi1, rfl⟩ := List.getElem?_eq_some.mp hf
    have hi2' : findFile (v.files level) lo2 < (v.files level).length := by omega
    refine ⟨_, List.getElem?_eq_getElem hi2', ?_⟩
    rcases Nat.lt_or_eq_of_le hmono with hlt | heq
    · have hpw := List.pairwise_iff_getElem.mp hda.2 _ _ hi2' hi1 hlt
      have hwf := hda.1 _ (List.getElem_mem hi2')
      exact lt_of_lt_of_le (lt_of_le_of_lt hwf (lt_trans hpw hfs)) hhi
    · have : (v.files level)[findFile (v.files level) lo2] =
          (v.files level)[findFile (v.files level) lo] := by
        congr 1
      rw [this]
      exact lt_of_lt_of_le hfs hhi

/-- Witness of claim C17: on level 1 holding `[2..4]` the range `[3..3]` overlaps,
and so does the wider range `[1..9]`. -/
theorem overlapInLevel_widen_witness :
    overlapInLevel boundaryVersion 1 [3] [3] = true ∧
    overlapInLevel boundaryVersion 1 [1] [9] = true :=
  ⟨by decide,
    overlapInLevel_widen boundaryVersion 1 [3] [3] [1] [9]
      (by
        intro L _
        by_cases h : L = 1
        · subst h
          unfold LevelSorted WellFormedRange RangesOverlap
          decide
        · have : boundaryVersion.files L = [] := by simp [boundaryVersion, New, h]
          rw [this]
          unfold LevelSorted
          simp)
      (by decide) (by decide) (by decide)⟩

/-- On a sorted level a file whose range contains the key sits at the index
`findFile` returns. -/
theorem containing_file_at_findFile (files : List FileMetaData) (k : List Nat)
    (hda : DisjointAscending files) (f : FileMetaData) (hf : f ∈ files)
    (h1 : f.smallest.UserKey ≤ k) (h2 : k ≤ f.largest.UserKey) :
    files[findFile files k]? = some f := by
  obtain ⟨_, hlo, hhi⟩ := findFile_index_spec files k (disjointAscending_sortedByLargest _ hda)
  obtain ⟨j, hj, rfl⟩ := List.getElem_of_mem hf
  have hge : findFile files k ≤ j := by
    by_contra hc
    have := hlo j _ (not_le.mp hc) (List.getElem?_eq_getElem hj)
    exact absurd (lt_of_le_of_lt h2 this) (lt_irrefl _)
  rcases Nat.lt_or_eq_of_le hge with hlt | heq
  · have hin : findFile files k < files.length := by omega
    have hk := hhi _ _ (le_refl _) (List.getElem?_eq_getElem hin)
    have hpw := List.pairwise_iff_getElem.mp hda.2 _ _ hin hj hlt
    exact absurd (lt_of_le_of_lt hk (lt_of_lt_of_le hpw h1)) (lt_irrefl _)
  · rw [heq]
    exact List.getElem?_eq_getElem hj

/-- Claim C20. On a level `L ≥ 1` that is sorted with non-overlapping user-key
ranges, for every user key `k`: a file `f` of the level with
`f.smallest.UserKey ≤ k ≤ f.largest.UserKey` is the only such file, it is the
file at index `findFile(files[L], k)`, and the candidate slice `Get` builds for
the level is exactly `[f]`. Conversely every file `Get` probes at the level
belongs to it and contains `k` in its range; so `Get` skips the level only when
no file of the level contains `k`. -/
theorem Get_level_candidate (v : Version) (L : Nat) (k : List Nat) (hL : 1 ≤ L)
    (hs : LevelSorted (v.files L)) :
    (∀ f ∈ v.files L, f.smallest.UserKey ≤ k → k ≤ f.largest.UserKey →
      (∀ g ∈ v.files L, g.smallest.UserKey ≤ k → k ≤ g.largest.UserKey → g = f) ∧
      (v.files L)[findFile (v.files L) k]? = some f ∧
      getLevelFiles v L k = [f]) ∧
    (∀ g ∈ getLevelFiles v L k,
      g ∈ v.files L ∧ g.smallest.UserKey ≤ k ∧ k ≤ g.largest.UserKey) ∧
    (getLevelFiles v L k = [] →
      ∀ f ∈ v.files L, ¬ (f.smallest.UserKey ≤ k ∧ k ≤ f.largest.UserKey)) := by
  have hda := (levelSorted_iff _).mp hs
  have hfirst : ∀ f ∈ v.files L, f.smallest.UserKey ≤ k → k ≤ f.largest.UserKey →
      (v.files L)[findFile (v.files L) k]? = some f ∧ getLevelFiles v L k = [f] := by
    intro f hf h1 h2
    have hat := containing_file_at_findFile (v.files L) k hda f hf h1 h2
    refine ⟨hat, ?_⟩
    rw [getLevelFiles_deep v k L hL]
    unfold levelCandidate
    rw [hat]
    simp [h1]
  refine ⟨?_, ?_, ?_⟩
  · intro f hf h1 h2
    refine ⟨?_, (hfirst f hf h1 h2).1, (hfirst f hf h1 h2).2⟩
    intro g hg h3 h4
    have ha := (hfirst f hf h1 h2).1
    have hb := (hfirst g hg h3 h4).1
    rw [ha] at hb
    exact (Option.some.inj hb).symm
  · intro g hg
    rw [getLevelFiles_deep v k L hL] at hg
    unfold levelCandidate at hg
    cases hget : (v.files L)[findFile (v.files L) k]? with
    | none => simp [hget] at hg
    | some f =>
      simp only [hget] at hg
      split_ifs at hg with hsm
      · rw [List.mem_singleton] at hg
        subst hg
        obtain ⟨_, _, hhi⟩ :=
          findFile_index_spec (v.files L) k (disjointAscending_sortedByLargest _ hda)
        obtain ⟨hin, heq⟩ := List.getElem?_eq_some.mp hget
        exact ⟨heq ▸ List.getElem_mem hin, hsm, hhi _ _ (le_refl _) hget⟩
      · simp at hg
  · intro hnil f hf hc
    have := (hfirst f hf hc.1 hc.2).2
    rw [hnil] at this
    cases this

/-- Witness of claim C20: on level 1 of the lookup version the key `[2]` lies in
the file `[1..3]`, which is the candidate of `Get`. -/
theorem Get_level_candidate_witness :
    getLevelFiles lookupVersion 1 [2] = [mkFile 4 100 [1] [3]] ∧
    ((∀ f ∈ lookupVersion.files 1, f.smallest.UserKey ≤ [2] → [2] ≤ f.largest.UserKey →
      (∀ g ∈ lookupVersion.files 1, g.smallest.UserKey ≤ [2] → [2] ≤ g.largest.UserKey →
        g = f) ∧
      (lookupVersion.files 1)[findFile (lookupVersion.files 1) [2]]? = some f ∧
      getLevelFiles lookupVersion 1 [2] = [f]) ∧
    (∀ g ∈ getLevelFiles lookupVersion 1 [2],
      g ∈ lookupVersion.files 1 ∧ g.smallest.UserKey ≤ [2] ∧ [2] ≤ g.largest.UserKey) ∧
    (getLevelFiles lookupVersion 1 [2] = [] →
      ∀ f ∈ lookupVersion.files 1, ¬ (f.smallest.UserKey ≤ [2] ∧ [2] ≤ f.largest.UserKey))) :=
  ⟨by decide,
    Get_level_candidate lookupVersion 1 [2] (by decide)
      (by unfold LevelSorted WellFormedRange RangesOverlap; decide)⟩

/-! ## Safety of `pickCompaction` -/

theorem firstAfterPointer_mem (pointer : Option InternalKey) (files : List FileMetaData)
    (f : FileMetaData) (h : firstAfterPointer pointer files = some f) : f ∈ files := by
  induction files with
  | nil => simp [firstAfterPointer] at h
  | cons g rest ih =>
    cases pointer with
    | none =>
      simp only [firstAfterPointer, Option.some.injEq] at h
      rw [← h]
      exact List.mem_cons_self g rest
    | some p =>
      simp only [firstAfterPointer] at h
      split_ifs at h with hc
      · rw [← Option.some.inj h]
        exact List.mem_cons_self g rest
      · exact List.mem_cons_of_mem g (ih h)

/-- The files `pickCompaction` takes as `inputs[0]` are files of the level, and
there is at least one. -/
theorem pickInputs0_mem (v : Version) (L : Nat) (inputs0 : List FileMetaData)
    (sm lg : InternalKey) (h : pickInputs0 v L = some (inputs0, sm, lg)) :
    inputs0 ≠ [] ∧ ∀ f ∈ inputs0, f ∈ v.files L := by
  unfold pickInputs0 at h
  split_ifs at h with h0
  · cases hfiles : v.files L with
    | nil => simp [hfiles] at h
    | cons g rest =>
      simp only [hfiles, Option.some.injEq, Prod.mk.injEq] at h
      rw [← h.1]
      exact ⟨List.cons_ne_nil g rest, fun f hf => hf⟩
  · cases hfirst : firstAfterPointer (v.compactPointer L) (v.files L) with
    | some f =>
      simp only [hfirst, Option.some.injEq, Prod.mk.injEq] at h
      rw [← h.1]
      refine ⟨List.cons_ne_nil f [], ?_⟩
      intro g hg
      rw [List.mem_singleton] at hg
      rw [hg]
      exact firstAfterPointer_mem _ _ _ hfirst
    | none =>
      rw [hfirst] at h
      cases hfiles : v.files L with
      | nil => simp [hfiles] at h
      | cons g rest =>
        simp only [hfiles, Option.some.injEq, Prod.mk.injEq] at h
        rw [← h.1]
        refine ⟨List.cons_ne_nil g [], ?_⟩
        intro g2 hg
        rw [List.mem_singleton] at hg
        rw [hg]
        exact List.mem_cons_self g rest

theorem pickInputs0_isSome (v : Version) (L : Nat) (hne : v.files L ≠ []) :
    ∃ r, pickInputs0 v L = some r := by
  obtain ⟨g, rest, hfiles⟩ := List.exists_cons_of_ne_nil hne
  unfold pickInputs0
  split_ifs with h0
  · rw [hfiles]
    exact ⟨_, rfl⟩
  · cases hfirst : firstAfterPointer (v.compactPointer L) (v.files L) with
    | some f => exact ⟨_, rfl⟩
    | none =>
      simp only [hfiles]
      exact ⟨_, rfl⟩

theorem pickCompactionLevel_range (fl : ℚ → ℚ) (v : Version) :
    pickCompactionLevel fl v = -1 ∨
      ∃ L : Nat, L < NumLevels - 1 ∧ pickCompactionLevel fl v = (L : Int) := by
  rcases pickCompactionLevel_spec fl v with ⟨h1, _⟩ | ⟨L, hL, h1, _⟩
  · exact Or.inl h1
  · exact Or.inr ⟨L, hL, h1⟩

/-- Claim C19. For every version (the float rounding keeping zero at zero),
`pickCompaction` returns nil exactly when `pickCompactionLevel` returns -1, and
it never stops in an index panic. Whenever `pickCompactionLevel` returns
`L ≥ 0`, `L ≤ NumLevels-2` (so `files[L+1]` exists), `files[L]` is not empty
(so `files[L][0]` and `inputs[0][0]` exist), and the returned compaction has a
non-empty `inputs[0]` made of files of level `L`. -/
theorem pickCompaction_safe (fl : ℚ → ℚ) (hfl : fl 0 = 0) (v : Version) :
    (pickCompaction fl v = some none ↔ pickCompactionLevel fl v = -1) ∧
    pickCompaction fl v ≠ none ∧
    (∀ L : Nat, pickCompactionLevel fl v = (L : Int) →
      L ≤ NumLevels - 2 ∧ L + 1 < NumLevels ∧ v.files L ≠ [] ∧
      ∃ c, pickCompaction fl v = some (some c) ∧ c.level = L ∧ c.inputs0 ≠ [] ∧
        ∀ f ∈ c.inputs0, f ∈ v.files L) := by
  have hthird : ∀ L : Nat, pickCompactionLevel fl v = (L : Int) →
      L ≤ NumLevels - 2 ∧ L + 1 < NumLevels ∧ v.files L ≠ [] ∧
      ∃ c, pickCompaction fl v = some (some c) ∧ c.level = L ∧ c.inputs0 ≠ [] ∧
        ∀ f ∈ c.inputs0, f ∈ v.files L := by
    intro L hL
    obtain ⟨hlt, hne⟩ := picked_level_nonempty fl hfl v L hL
    have hN : NumLevels = 7 := rfl
    refine ⟨by omega, by omega, hne, ?_⟩
    obtain ⟨⟨i0, sm, lg⟩, hr⟩ := pickInputs0_isSome v L hne
    obtain ⟨h1, h2⟩ := pickInputs0_mem v L i0 sm lg hr
    rw [pickCompaction_of_level fl v L hL]
    unfold pickCompactionAt
    rw [hr]
    exact ⟨_, rfl, rfl, h1, h2⟩
  refine ⟨?_, ?_, hthird⟩
  · constructor
    · intro h
      rcases pickCompactionLevel_range fl v with h1 | ⟨L, _, h1⟩
      · exact h1
      · obtain ⟨_, _, _, c, hc, _⟩ := hthird L h1
        rw [hc] at h
        simp at h
    · intro h
      unfold pickCompaction
      rw [h]
      simp
  · rcases pickCompactionLevel_range fl v with h1 | ⟨L, _, h1⟩
    · unfold pickCompaction
      rw [h1]
      simp
    · obtain ⟨_, _, _, c, hc, _⟩ := hthird L h1
      rw [hc]
      simp

/-- Witness of claim C19 on the version whose level 1 holds 20 MiB. -/
theorem pickCompaction_safe_witness :
    pickCompactionLevel id trivialMoveVersion = 1 ∧
    ((pickCompaction id trivialMoveVersion = some none ↔
        pickCompactionLevel id trivialMoveVersion = -1) ∧
    pickCompaction id trivialMoveVersion ≠ none ∧
    (∀ L : Nat, pickCompactionLevel id trivialMoveVersion = (L : Int) →
      L ≤ NumLevels - 2 ∧ L + 1 < NumLevels ∧ trivialMoveVersion.files L ≠ [] ∧
      ∃ c, pickCompaction id trivialMoveVersion = some (some c) ∧ c.level = L ∧
        c.inputs0 ≠ [] ∧ ∀ f ∈ c.inputs0, f ∈ trivialMoveVersion.files L)) :=
  ⟨pickCompactionLevel_trivialMoveVersion, pickCompaction_safe id rfl trivialMoveVersion⟩

/-! ## File numbers along the history of a version -/

theorem filesFresh_mono (files : Nat → List FileMetaData) (a b : Nat) (hab : a ≤ b)
    (h : FilesFresh files a) : FilesFresh files b :=
  ⟨fun l f hf => lt_of_lt_of_le (h.1 l f hf) hab, h.2.1, h.2.2⟩

theorem filesFresh_of_sublist (files files2 : Nat → List FileMetaData) (b : Nat)
    (hsub : ∀ l, (files2 l).Sublist (files l)) (h : FilesFresh files b) :
    FilesFresh files2 b := by
  refine ⟨?_, ?_, ?_⟩
  · intro l f hf
    exact h.1 l f ((hsub l).subset hf)
  · intro l
    exact (h.2.1 l).sublist ((hsub l).map _)
  · intro l1 l2 hne f hf g hg
    exact h.2.2 l1 l2 hne f ((hsub l1).subset hf) g ((hsub l2).subset hg)

theorem filesFresh_add (files files2 : Nat → List FileMetaData) (b L : Nat)
    (meta : FileMetaData) (hperm : (files2 L).Perm (meta :: files L))
    (hother : ∀ l, l ≠ L → files2 l = files l)
    (hnew : ∀ l, ∀ f ∈ files l, f.number ≠ meta.number) (hb : meta.number < b)
    (h : FilesFresh files b) : FilesFresh files2 b := by
  have hmem : ∀ l f, f ∈ files2 l → f ∈ files l ∨ (l = L ∧ f = meta) := by
    intro l f hf
    by_cases hl : l = L
    · subst hl
      rcases List.mem_cons.mp (hperm.subset hf) with h1 | h1
      · exact Or.inr ⟨rfl, h1⟩
      · exact Or.inl h1
    · rw [hother l hl] at hf
      exact Or.inl hf
  refine ⟨?_, ?_, ?_⟩
  · intro l f hf
    rcases hmem l f hf with h1 | ⟨_, h1⟩
    · exact h.1 l f h1
    · rw [h1]
      exact hb
  · intro l
    by_cases hl : l = L
    · subst hl
      have hp : ((files2 l).map (fun f => f.number)).Perm
          (meta.number :: (files l).map (fun f => f.number)) := hperm.map _
      rw [hp.nodup_iff, List.nodup_cons]
      refine ⟨?_, h.2.1 l⟩
      intro hin
      obtain ⟨f, hf, hfn⟩ := List.mem_map.mp hin
      exact hnew l f hf hfn
    · rw [hother l hl]
      exact h.2.1 l
  · intro l1 l2 hne f hf g hg
    rcases hmem l1 f hf with h1 | ⟨hl1, h1⟩
    · rcases hmem l2 g hg with h2 | ⟨hl2, h2⟩
      · exact h.2.2 l1 l2 hne f h1 g h2
      · rw [h2]
        exact hnew l1 f h1
    · rcases hmem l2 g hg with h2 | ⟨hl2, h2⟩
      · rw [h1]
        exact fun e => hnew l2 g h2 e.symm
      · exact absurd (hl1.trans hl2.symm) hne

theorem deleteFile_sublist (v : Version) (level : Nat) (meta : FileMetaData) (l : Nat) :
    ((deleteFile v level meta).files l).Sublist (v.files l) := by
  by_cases hl : l = level
  · subst hl
    rw [deleteFile_files]
    exact deleteFromLevel_sublist _ _
  · rw [deleteFile_files_other _ _ _ _ hl]

theorem foldl_deleteFile_sublist (level : Nat) (fs : List FileMetaData) :
    ∀ (v : Version) (l : Nat),
      ((fs.foldl (fun w f => deleteFile w level f) v).files l).Sublist (v.files l) := by
  induction fs with
  | nil =>
    intro v l
    exact List.Sublist.refl _
  | cons f rest ih =>
    intro v l
    rw [List.foldl_cons]
    exact (ih (deleteFile v level f) l).trans (deleteFile_sublist v level f l)

theorem deleteFile_nextFileNumber (v : Version) (level : Nat) (meta : FileMetaData) :
    (deleteFile v level meta).nextFileNumber = v.nextFileNumber := rfl

theorem foldl_deleteFile_nextFileNumber (level : Nat) (fs : List FileMetaData) :
    ∀ v : Version,
      (fs.foldl (fun w f => deleteFile w level f) v).nextFileNumber = v.nextFileNumber := by
  induction fs with
  | nil => intro v; rfl
  | cons f rest ih =>
    intro v
    rw [List.foldl_cons, ih]
    rfl

theorem foldl_addFile_nextFileNumber (level : Nat) (fs : List FileMetaData) :
    ∀ v : Version,
      (fs.foldl (fun w f => addFile w level f) v).nextFileNumber = v.nextFileNumber := by
  induction fs with
  | nil => intro v; rfl
  | cons f rest ih =>
    intro v
    rw [List.foldl_cons, ih, addFile_nextFileNumber]

/-- Adding a file whose number is the bound keeps the numbers fresh below the
next bound. -/
theorem addFile_filesFresh (v : Version) (level b : Nat) (meta : FileMetaData)
    (hnum : meta.number = b) (h : FilesFresh v.files b) :
    FilesFresh (addFile v level meta).files (b + 1) := by
  apply filesFresh_add v.files _ (b + 1) level meta (addFile_files_perm v level meta)
    (fun l hl => addFile_files_other v level l meta hl) _ (by omega)
    (filesFresh_mono _ b (b + 1) (by omega) h)
  intro l f hf
  have := h.1 l f hf
  omega

theorem foldl_addFile_filesFresh (level : Nat) (ms : List FileMetaData) :
    ∀ (v : Version) (b : Nat), FilesFresh v.files b →
      ms.map (fun f => f.number) = List.range' b ms.length →
      FilesFresh (ms.foldl (fun w f => addFile w level f) v).files (b + ms.length) := by
  induction ms with
  | nil =>
    intro v b h _
    exact h
  | cons m rest ih =>
    intro v b h hnum
    simp only [List.map_cons, List.length_cons, List.range'_succ, List.cons.injEq] at hnum
    rw [List.foldl_cons, List.length_cons]
    have := ih (addFile v level m) (b + 1) (addFile_filesFresh v level b m hnum.1 h) hnum.2
    rw [show b + (rest.length + 1) = b + 1 + rest.length by omega]
    exact this

/-- Without wrap-around the output files of the rewrite carry the consecutive
numbers from the old `nextFileNumber` on, and the counter ends right after. -/
theorem mergeOuter_numbers (fileSize : List InternalKey → Nat) :
    ∀ (fuel n : Nat) (ck : Option InternalKey) (stream : List InternalKey) (m : Nat)
      (outputs : List (FileMetaData × List InternalKey)),
      mergeOuter fileSize fuel n ck stream = some (m, outputs) →
      n + outputs.length < 2 ^ 64 →
      m = n + outputs.length ∧
      outputs.map (fun o => o.1.number) = List.range' n outputs.length := by
  intro fuel
  induction fuel with
  | zero =>
    intro n ck stream m outputs h _
    cases stream with
    | nil =>
      simp only [mergeOuter, Option.some.injEq, Prod.mk.injEq] at h
      obtain ⟨rfl, rfl⟩ := h
      simp
    | cons k rest =>
      simp only [mergeOuter, Option.some.injEq, Prod.mk.injEq] at h
      obtain ⟨rfl, rfl⟩ := h
      simp
  | succ fuel ih =>
    intro n ck stream m outputs h hw
    cases stream with
    | nil =>
      simp only [mergeOuter, Option.some.injEq, Prod.mk.injEq] at h
      obtain ⟨rfl, rfl⟩ := h
      simp
    | cons k rest =>
      simp only [mergeOuter] at h
      cases hin : mergeInner fileSize ck [] none (k :: rest) with
      | none => simp [hin] at h
      | some r =>
        obtain ⟨ck1, records, largest, remaining⟩ := r
        simp only [hin] at h
        cases largest with
        | none => simp at h
        | some lg =>
          simp only at h
          split at h
          · cases h
          · rename_i m2 outs2 hout
            simp only [Option.some.injEq, Prod.mk.injEq] at h
            obtain ⟨rfl, rfl⟩ := h
            simp only [List.length_cons] at hw ⊢
            have hmod : (n + 1) % 2 ^ 64 = n + 1 := Nat.mod_eq_of_lt (by omega)
            rw [hmod] at hout
            obtain ⟨h1, h2⟩ := ih (n + 1) ck1 remaining m2 outs2 hout (by omega)
            refine ⟨by omega, ?_⟩
            simp only [List.map_cons, List.range'_succ, h2]

theorem trivial_move_filesFresh (v : Version) (L : Nat) (f : FileMetaData)
    (hf : f ∈ v.files L) (h : FilesFresh v.files v.nextFileNumber) :
    FilesFresh (addFile (deleteFile v L f) (L + 1) f).files v.nextFileNumber := by
  have hdel : FilesFresh (deleteFile v L f).files v.nextFileNumber :=
    filesFresh_of_sublist v.files _ _ (fun l => deleteFile_sublist v L f l) h
  apply filesFresh_add (deleteFile v L f).files _ v.nextFileNumber (L + 1) f
    (addFile_files_perm _ _ _) (fun l hl => addFile_files_other _ _ l _ hl) _ (h.1 L f hf) hdel
  intro l g hg
  by_cases hl : l = L
  · subst hl
    rw [deleteFile_files] at hg
    exact deleteFromLevel_no_number f.number _ (h.2.1 l) g hg
  · rw [deleteFile_files_other _ _ _ _ hl] at hg
    exact h.2.2 l L hl g hg f hf

theorem compactionWork_filesFresh (iter : Compaction → List InternalKey)
    (fileSize : List InternalKey → Nat) (v w : Version) (c : Compaction)
    (hin : ∀ f ∈ c.inputs0, f ∈ v.files c.level)
    (hw : ∀ n outputs, c.isTrivialMove = false →
      mergeRewrite fileSize v.nextFileNumber (iter c) = some (n, outputs) →
      v.nextFileNumber + outputs.length < 2 ^ 64)
    (hc : compactionWork iter fileSize v c = some w)
    (h : FilesFresh v.files v.nextFileNumber) :
    FilesFresh w.files w.nextFileNumber ∧ v.nextFileNumber ≤ w.nextFileNumber := by
  unfold compactionWork at hc
  split_ifs at hc with ht
  · cases hi0 : c.inputs0 with
    | nil => simp [hi0] at hc
    | cons f rest =>
      simp only [hi0, Option.some.injEq] at hc
      subst hc
      have hf : f ∈ v.files c.level := hin f (by rw [hi0]; exact List.mem_cons_self f rest)
      rw [addFile_nextFileNumber, deleteFile_nextFileNumber]
      exact ⟨trivial_move_filesFresh v c.level f hf h, le_refl _⟩
  · cases hm : mergeRewrite fileSize v.nextFileNumber (iter c) with
    | none => simp [hm] at hc
    | some r =>
      obtain ⟨n, outputs⟩ := r
      simp only [hm, Option.some.injEq] at hc
      subst hc
      have hnowrap := hw n outputs (by simpa using ht) hm
      obtain ⟨hn, hnums⟩ := mergeOuter_numbers fileSize _ _ _ _ _ _ hm hnowrap
      rw [foldl_addFile_nextFileNumber, foldl_deleteFile_nextFileNumber,
        foldl_deleteFile_nextFileNumber]
      simp only
      refine ⟨?_, by omega⟩
      have hdel : FilesFresh
          (c.inputs1.foldl (fun w f => deleteFile w (c.level + 1) f)
            (c.inputs0.foldl (fun w f => deleteFile w c.level f)
              { v with nextFileNumber := n })).files v.nextFileNumber := by
        apply filesFresh_of_sublist v.files _ _ _ h
        intro l
        exact (foldl_deleteFile_sublist _ _ _ l).trans (foldl_deleteFile_sublist _ _ _ l)
      have hadd := foldl_addFile_filesFresh (c.level + 1) (outputs.map (fun o => o.1)) _
        v.nextFileNumber hdel (by rw [List.map_map, List.length_map]; exact hnums)
      rw [List.length_map, ← hn] at hadd
      exact hadd

/-- One step keeps the stored file numbers distinct and below `nextFileNumber`,
and does not decrease `nextFileNumber`. -/
theorem step_filesFresh (v w : Version) (hs : Step v w)
    (h : FilesFresh v.files v.nextFileNumber) :
    FilesFresh w.files w.nextFileNumber ∧ v.nextFileNumber ≤ w.nextFileNumber := by
  cases hs with
  | save _ hw =>
    have hmod : (v.nextFileNumber + 1) % 2 ^ 64 = v.nextFileNumber + 1 :=
      Nat.mod_eq_of_lt hw
    simp only [Save, hmod]
    exact ⟨filesFresh_mono _ _ _ (by omega) h, by omega⟩
  | flush fileSize imm _ _ hne hw hflush =>
    have hmod : (v.nextFileNumber + 1) % 2 ^ 64 = v.nextFileNumber + 1 :=
      Nat.mod_eq_of_lt hw
    unfold WriteLevel0Table at hflush
    cases hk : (flushPrepare fileSize v imm).2.2 with
    | none => simp [hk] at hflush
    | some keys =>
      simp only [hk, Option.some.injEq] at hflush
      subst hflush
      rw [addFile_nextFileNumber]
      simp only [flushPrepare, hmod]
      refine ⟨?_, by omega⟩
      exact addFile_filesFresh _ _ v.nextFileNumber _ rfl h
  | compact fl iter fileSize _ _ b hw hwork =>
    unfold DoCompactionWork at hwork
    cases hp : pickCompaction fl v with
    | none => simp [hp] at hwork
    | some oc =>
      cases oc with
      | none =>
        simp only [hp, Option.some.injEq, Prod.mk.injEq] at hwork
        rw [← hwork.2]
        exact ⟨h, le_refl _⟩
      | some c =>
        simp only [hp, Option.map_eq_some', Prod.mk.injEq] at hwork
        obtain ⟨w1, hcw, _, rfl⟩ := hwork
        obtain ⟨_, sm, lg, hpick, _⟩ := pickCompaction_some fl v c hp
        exact compactionWork_filesFresh iter fileSize v w1 c
          (pickInputs0_mem v c.level c.inputs0 sm lg hpick).2
          (fun n outputs ht hm => hw c n outputs hp ht hm) hcw h

theorem filesFresh_New : FilesFresh New.files New.nextFileNumber := by
  refine ⟨?_, ?_, ?_⟩
  · intro l f hf
    simp [New] at hf
  · intro l
    simp [New]
  · intro l1 l2 _ f hf
    simp [New] at hf

theorem reachable_filesFresh (v : Version) (h : Reachable v) :
    FilesFresh v.files v.nextFileNumber := by
  induction h with
  | init => exact filesFresh_New
  | step v w _ hs ih => exact (step_filesFresh v w hs ih).1

/-- Claim C16. In every version reached from `New` by finitely many `Save`,
`WriteLevel0Table` (non-empty memtable) and `DoCompactionWork` steps without
wrap-around of `nextFileNumber`: every file number stored on any level is
strictly below `nextFileNumber` and no two stored files share a number; every
further step leaves `nextFileNumber` at least as large; and the number `Save`
returns is strictly below the `nextFileNumber` it leaves. -/
theorem reachable_file_numbers (v : Version) (h : Reachable v) :
    ((∀ l, ∀ f ∈ v.files l, f.number < v.nextFileNumber) ∧
     (∀ l, ((v.files l).map (fun f => f.number)).Nodup) ∧
     (∀ l1 l2, l1 ≠ l2 → ∀ f ∈ v.files l1, ∀ g ∈ v.files l2, f.number ≠ g.number)) ∧
    (∀ w, Step v w → v.nextFileNumber ≤ w.nextFileNumber) ∧
    (v.nextFileNumber + 1 < 2 ^ 64 → (Save v).1 < (Save v).2.nextFileNumber) := by
  have hf := reachable_filesFresh v h
  refine ⟨hf, fun w hs => (step_filesFresh v w hs hf).2, ?_⟩
  intro hw
  simp only [Save, Nat.mod_eq_of_lt hw]
  omega

theorem reachable_flushedVersion : Reachable flushedVersion :=
  Reachable.step New flushedVersion Reachable.init
    (Step.flush countingSize pushDownMemtable New flushedVersion (by decide) (by decide) rfl)

/-- Witness of claim C16: the version reached from `New` by flushing a memtable
of two records, which holds file 1 on level 2 and has `nextFileNumber = 2`. -/
theorem reachable_file_numbers_witness :
    flushedVersion.nextFileNumber = 2 ∧
    (flushedVersion.files 2).map (fun f => f.number) = [1] ∧
    (((∀ l, ∀ f ∈ flushedVersion.files l, f.number < flushedVersion.nextFileNumber) ∧
      (∀ l, ((flushedVersion.files l).map (fun f => f.number)).Nodup) ∧
      (∀ l1 l2, l1 ≠ l2 → ∀ f ∈ flushedVersion.files l1, ∀ g ∈ flushedVersion.files l2,
        f.number ≠ g.number)) ∧
     (∀ w, Step flushedVersion w → flushedVersion.nextFileNumber ≤ w.nextFileNumber) ∧
     (flushedVersion.nextFileNumber + 1 < 2 ^ 64 →
       (Save flushedVersion).1 < (Save flushedVersion).2.nextFileNumber)) :=
  ⟨rfl, by decide, reachable_file_numbers flushedVersion reachable_flushedVersion⟩

/-! ## The walk of the flush and real overlap -/

/-- Claim C11, evaluated at the boundary: level 2 holds `[2..4]`, the other levels
are empty, and the memtable spans `[1..2]`. The new file shares the user key
`[2]` with the file of level 2, so the walk of the claim stops at level 1; the
code asks `overlapInLevel(2, [1], [2])`, which answers false (the strict
comparison of claim C3), walks on and installs the file at level 2. -/
theorem WriteLevel0Table_walk_passes_overlap :
    overlapsSomeFile (boundaryLevel2Version.files 2) [1] [2] = true ∧
    overlapInLevel boundaryLevel2Version 2 [1] [2] = false ∧
    walkLevel boundaryLevel2Version [1] [2] = 1 ∧
    flushLevel boundaryLevel2Version [1] [2] = 2 ∧
    (WriteLevel0Table countingSize boundaryLevel2Version boundaryMemtable).map
        (fun w => ((w.files 1).map (fun f => f.number), (w.files 2).map (fun f => f.number))) =
      some ([], [2, 1]) := by
  decide

/-! ## Trivial move on a reachable version -/

theorem reachable_bigFlushedVersion : Reachable bigFlushedVersion :=
  Reachable.step New bigFlushedVersion Reachable.init
    (Step.flush bigTableSize pushDownMemtable New bigFlushedVersion (by decide) (by decide) rfl)

theorem bigFlushedVersion_files_other (L : Nat) (h : L ≠ 2) : bigFlushedVersion.files L = [] := by
  unfold bigFlushedVersion
  rw [addFile_files_other _ _ _ _ h]
  rfl

theorem levelScore_bigFlushedVersion_two : levelScore roundF64 bigFlushedVersion 2 = 2 := by
  have ht : totalFileSize (bigFlushedVersion.files 2) = 209715200 := by decide
  unfold levelScore
  rw [if_neg (by decide), ht, roundF64_natCast _ (by norm_num),
    maxBytesForLevel_f64 2 (by decide) (by decide),
    roundF64_of_nat _ 2 (by norm_num) (by norm_num)]
  norm_num

theorem bigFlushedVersion_step_two :
    pickLevelStep roundF64 bigFlushedVersion (-1, 1) 2 = (2, 2) := by
  unfold pickLevelStep
  rw [levelScore_bigFlushedVersion_two, if_pos (by norm_num)]
  simp

theorem pickCompactionLevel_bigFlushedVersion :
    pickCompactionLevel roundF64 bigFlushedVersion = 2 := by
  rw [pickCompactionLevel_steps,
    pickLevelStep_zero roundF64 bigFlushedVersion (-1, 1) 0
      (levelScore_empty_f64 _ 0 (bigFlushedVersion_files_other 0 (by decide))) (by norm_num),
    pickLevelStep_zero roundF64 bigFlushedVersion (-1, 1) 1
      (levelScore_empty_f64 _ 1 (bigFlushedVersion_files_other 1 (by decide))) (by norm_num),
    bigFlushedVersion_step_two,
    pickLevelStep_zero roundF64 bigFlushedVersion _ 3
      (levelScore_empty_f64 _ 3 (bigFlushedVersion_files_other 3 (by decide))) (by norm_num),
    pickLevelStep_zero roundF64 bigFlushedVersion _ 4
      (levelScore_empty_f64 _ 4 (bigFlushedVersion_files_other 4 (by decide))) (by norm_num),
    pickLevelStep_zero roundF64 bigFlushedVersion _ 5
      (levelScore_empty_f64 _ 5 (bigFlushedVersion_files_other 5 (by decide))) (by norm_num)]

theorem pickCompaction_bigFlushedVersion :
    pickCompaction roundF64 bigFlushedVersion =
      some (some { level := 2, inputs0 := bigFlushedVersion.files 2, inputs1 := [] }) := by
  rw [pickCompaction_of_level roundF64 bigFlushedVersion 2 pickCompactionLevel_bigFlushedVersion]
  decide

/-- Claim C10. `isTrivialMove(c)` holds exactly when `inputs[0]` has one file and
`inputs[1]` none. On every version reached from `New` (where file numbers are
unique, as the data model has it) on which `pickCompaction` returns a trivial
move at level `L` with sole input `f`, `DoCompactionWork` returns true and
afterwards `files[L]` holds no file with `f.number`, `files[L+1]` holds `f`
unchanged, `nextFileNumber` is unchanged, and every level other than `L` and
`L+1` is unchanged. -/
theorem trivial_move_installs (fl : ℚ → ℚ) (iter : Compaction → List InternalKey)
    (fileSize : List InternalKey → Nat) (v : Version) (c : Compaction) (f : FileMetaData)
    (hv : Reachable v)
    (hp : pickCompaction fl v = some (some c)) (ht : c.isTrivialMove = true)
    (hf : c.inputs0 = [f]) :
    (∀ d : Compaction, d.isTrivialMove = true ↔ d.inputs0.length = 1 ∧ d.inputs1.length = 0) ∧
    ∃ w, DoCompactionWork fl iter fileSize v = some (true, w) ∧
      (∀ g ∈ w.files c.level, g.number ≠ f.number) ∧
      f ∈ w.files (c.level + 1) ∧
      w.nextFileNumber = v.nextFileNumber ∧
      (∀ l, l ≠ c.level → l ≠ c.level + 1 → w.files l = v.files l) :=
  trivial_move_of_distinct_numbers fl iter fileSize v c f hp ht hf
    ((reachable_filesFresh v hv).2.1 c.level)

/-- Witness of claim C10: the version reached by flushing 200 MiB into `New` holds
one file on level 2, which scores 2.0 in `float64`; the file moves to level 3. -/
theorem trivial_move_installs_witness :
    Reachable bigFlushedVersion ∧
    pickCompaction roundF64 bigFlushedVersion =
      some (some { level := 2, inputs0 := bigFlushedVersion.files 2, inputs1 := [] }) ∧
    ((∀ d : Compaction, d.isTrivialMove = true ↔ d.inputs0.length = 1 ∧ d.inputs1.length = 0) ∧
    ∃ w, DoCompactionWork roundF64 (fun _ => []) countingSize bigFlushedVersion = some (true, w) ∧
      (∀ g ∈ w.files 2, g.number ≠
        (flushMeta 1
          ({ UserKey := [97], Seq := 1, Kind := 1, UserValue := [] },
           { UserKey := [122], Seq := 2, Kind := 1, UserValue := [] }, 209715200)).number) ∧
      flushMeta 1
          ({ UserKey := [97], Seq := 1, Kind := 1, UserValue := [] },
           { UserKey := [122], Seq := 2, Kind := 1, UserValue := [] }, 209715200) ∈
        w.files (2 + 1) ∧
      w.nextFileNumber = bigFlushedVersion.nextFileNumber ∧
      (∀ l, l ≠ 2 → l ≠ 2 + 1 → w.files l = bigFlushedVersion.files l)) :=
  ⟨reachable_bigFlushedVersion, pickCompaction_bigFlushedVersion,
    trivial_move_installs roundF64 (fun _ => []) countingSize bigFlushedVersion
      { level := 2, inputs0 := bigFlushedVersion.files 2, inputs1 := [] }
      (flushMeta 1
        ({ UserKey := [97], Seq := 1, Kind := 1, UserValue := [] },
         { UserKey := [122], Seq := 2, Kind := 1, UserValue := [] }, 209715200))
      reachable_bigFlushedVersion pickCompaction_bigFlushedVersion (by decide) (by decide)⟩

/-! ## The concrete versions under `float64` rounding -/

theorem pickLevelStep_keep (fl : ℚ → ℚ) (v : Version) (st : Int × ℚ) (L : Nat)
    (h : levelScore fl v L ≤ st.2) : pickLevelStep fl v st L = st := by
  unfold pickLevelStep
  rw [if_neg (not_lt.mpr h)]

theorem trivialMoveVersion_files_other (L : Nat) (h1 : L ≠ 1) (h2 : L ≠ 2) :
    trivialMoveVersion.files L = [] := by
  simp [trivialMoveVersion, New, h1, h2]

theorem levelScore_trivialMoveVersion_one : levelScore roundF64 trivialMoveVersion 1 = 2 := by
  have ht : totalFileSize (trivialMoveVersion.files 1) = 20971520 := by decide
  unfold levelScore
  rw [if_neg (by decide), ht, roundF64_natCast _ (by norm_num),
    maxBytesForLevel_f64 1 (by decide) (by decide),
    roundF64_of_nat _ 2 (by norm_num) (by norm_num)]
  norm_num

theorem levelScore_trivialMoveVersion_two :
    levelScore roundF64 trivialMoveVersion 2 = 1 / 1048576 := by
  have ht : totalFileSize (trivialMoveVersion.files 2) = 100 := by decide
  unfold levelScore
  rw [if_neg (by decide), ht, roundF64_natCast _ (by norm_num),
    maxBytesForLevel_f64 2 (by decide) (by decide),
    roundF64_of_floor _ (-20) 4503599627370496 (by norm_num) (by norm_num) (by norm_num)
      (by norm_num)]
  norm_num

/-- In `float64` arithmetic `pickCompactionLevel` picks level 1 of
`trivialMoveVersion`, as it does in exact arithmetic. -/
theorem pickCompactionLevel_trivialMoveVersion_f64 :
    pickCompactionLevel roundF64 trivialMoveVersion = 1 := by
  have step1 : pickLevelStep roundF64 trivialMoveVersion (-1, 1) 1 = (1, 2) := by
    unfold pickLevelStep
    rw [levelScore_trivialMoveVersion_one, if_pos (by norm_num)]
    simp
  rw [pickCompactionLevel_steps,
    pickLevelStep_zero roundF64 trivialMoveVersion (-1, 1) 0
      (levelScore_empty_f64 _ 0 (trivialMoveVersion_files_other 0 (by decide) (by decide)))
      (by norm_num),
    step1,
    pickLevelStep_keep roundF64 trivialMoveVersion (1, 2) 2
      (by rw [levelScore_trivialMoveVersion_two]; norm_num),
    pickLevelStep_zero roundF64 trivialMoveVersion _ 3
      (levelScore_empty_f64 _ 3 (trivialMoveVersion_files_other 3 (by decide) (by decide)))
      (by norm_num),
    pickLevelStep_zero roundF64 trivialMoveVersion _ 4
      (levelScore_empty_f64 _ 4 (trivialMoveVersion_files_other 4 (by decide) (by decide)))
      (by norm_num),
    pickLevelStep_zero roundF64 trivialMoveVersion _ 5
      (levelScore_empty_f64 _ 5 (trivialMoveVersion_files_other 5 (by decide) (by decide)))
      (by norm_num)]

theorem level0Version_files_other (L : Nat) (h1 : L ≠ 0) (h2 : L ≠ 1) :
    level0Version.files L = [] := by
  simp [level0Version, New, h1, h2]

theorem levelScore_level0Version_zero : levelScore roundF64 level0Version 0 = 5 / 4 := by
  have hl : (level0Version.files 0).length = 5 := by decide
  unfold levelScore
  rw [if_pos rfl, hl, roundF64_natCast _ (by norm_num)]
  have hq : ((5 : ℕ) : ℚ) / ((L0_CompactionTrigger : ℕ) : ℚ) = 5 / 4 := by
    simp [L0_CompactionTrigger]
  rw [hq, roundF64_of_floor _ 0 5629499534213120 (by norm_num) (by norm_num) (by norm_num)
    (by norm_num)]
  norm_num

theorem levelScore_level0Version_one : levelScore roundF64 level0Version 1 = 1 / 524288 := by
  have ht : totalFileSize (level0Version.files 1) = 20 := by decide
  unfold levelScore
  rw [if_neg (by decide), ht, roundF64_natCast _ (by norm_num),
    maxBytesForLevel_f64 1 (by decide) (by decide),
    roundF64_of_floor _ (-19) 4503599627370496 (by norm_num) (by norm_num) (by norm_num)
      (by norm_num)]
  norm_num

/-- In `float64` arithmetic `pickCompactionLevel` picks level 0 of
`level0Version`, as it does in exact arithmetic. -/
theorem pickCompactionLevel_level0Version_f64 :
    pickCompactionLevel roundF64 level0Version = 0 := by
  have step0 : pickLevelStep roundF64 level0Version (-1, 1) 0 = (0, 5 / 4) := by
    unfold pickLevelStep
    rw [levelScore_level0Version_zero, if_pos (by norm_num)]
    simp
  rw [pickCompactionLevel_steps, step0,
    pickLevelStep_keep roundF64 level0Version (0, 5 / 4) 1
      (by rw [levelScore_level0Version_one]; norm_num),
    pickLevelStep_zero roundF64 level0Version _ 2
      (levelScore_empty_f64 _ 2 (level0Version_files_other 2 (by decide) (by decide)))
      (by norm_num),
    pickLevelStep_zero roundF64 level0Version _ 3
      (levelScore_empty_f64 _ 3 (level0Version_files_other 3 (by decide) (by decide)))
      (by norm_num),
    pickLevelStep_zero roundF64 level0Version _ 4
      (levelScore_empty_f64 _ 4 (level0Version_files_other 4 (by decide) (by decide)))
      (by norm_num),
    pickLevelStep_zero roundF64 level0Version _ 5
      (levelScore_empty_f64 _ 5 (level0Version_files_other 5 (by decide) (by decide)))
      (by norm_num)]

end LanguorDB
